import Mathlib

/-!
Verification development for the cruisemic underway-feed ingestion program.

The Go sources are shallowly embedded:
* Go strings and byte slices become `List Char` (`Str`); all inputs handled by
  the program are ASCII, and `Char` comparisons are on code points.
* `time.Time` becomes an `Int` counting seconds on the proleptic Gregorian
  calendar from 0001-01-01T00:00:00Z (the zero `time.Time` of Go), so `0`
  plays the role of Go's zero time and `IsZero` becomes `= 0`.
  `time.Duration` becomes an `Int` (Go's `int64` nanosecond count; branch
  decisions of the throttle are insensitive to the unit, and `time.Time.Sub`
  saturates at the `int64` bounds in a way that never changes the sign or the
  comparison against a duration, so plain integer subtraction is faithful).
* fallible Go code returns `Option`/`Except`; a Go runtime panic is `none`.
* float64 values are embedded as `GoFloat` (a rational, an infinity, or NaN);
  parsing and the arithmetic used by the geo conversions are exact on the
  inputs exercised here, and out-of-range/rounding corners are noted inline.
-/

namespace Cruisemic

/-- Go strings / byte slices, as lists of characters. -/
abbrev Str := List Char

/-! ### ASCII whitelist (parse/whitelist.go, `Whitelist`) -/

/-- One byte passes the whitelist iff it is printable ASCII (0x20-0x7E) or
TAB (9), LF (10), CR (13). Mirrors the condition in the loop body of
`Whitelist`. -/
def isWhitelisted (c : Char) : Bool :=
  (32 ≤ c.toNat && c.toNat ≤ 126) || c.toNat == 9 || c.toNat == 10 || c.toNat == 13

/-- The compaction loop of `Whitelist`: keep whitelisted bytes in order. -/
def whitelistLoop : Str → Str
  | [] => []
  | c :: rest => if isWhitelisted c then c :: whitelistLoop rest else whitelistLoop rest

/-- `Whitelist(b, n)` compacts the first `n` bytes of `b` in place and returns
the clean length; the embedding returns the compacted prefix `b[:nclean]`
itself (the in-place mutation and the returned count are recovered as the
list and its length). -/
def Whitelist (b : Str) (n : Nat) : Str :=
  whitelistLoop (b.take n)

/-! ### Throttle (parse/throttle.go: `Throttle`, `NewThrottle`, `Limit`) -/

/-- Parsed record, `parse.Data`. `Time = 0` is Go's zero `time.Time`.
Error values are embedded as their message strings. -/
structure Data where
  Time : Int := 0
  Throttled : Bool := false
  Values : List Str := []
  Errors : List Str := []
  deriving Repr, DecidableEq

/-- Single-recent rate limiter, `parse.Throttle`. -/
structure Throttle where
  recent : Int := 0
  interval : Int := 0
  deriving Repr, DecidableEq

/-- `NewThrottle`: negative intervals are clamped to zero. -/
def NewThrottle (interval : Int) : Throttle :=
  { recent := 0, interval := if interval < 0 then 0 else interval }

/-- `Throttle.Limit`. The Go method mutates both the throttle (`recent`) and
the record (`Throttled`); the embedding returns the updated pair. -/
def Throttle.Limit (th : Throttle) (d : Data) : Throttle × Data :=
  if d.Time = 0 then (th, d)
  else if th.recent = 0 then ({ th with recent := d.Time }, d)
  else
    let diff := d.Time - th.recent
    if 0 ≤ diff ∧ diff < th.interval then (th, { d with Throttled := true })
    else ({ th with recent := d.Time }, d)

/-! ### Parser registry (parse/basic.go, `ParserRegistry`) -/

/-- Tags for the parser constructors registered in `ParserRegistry`. Every
constructor in the registry has Go type
`func(project string, interval time.Duration, now func() time.Time) Parser`. -/
inductive ParserCtor where
  | gradients4
  | gradients5
  | kiloMoana
  | tn427
  | tara
  deriving Repr, DecidableEq

/-- `ParserRegistry` from parse/basic.go. The Go map literal has exactly these
five entries; `NewTN448Parser` is not defined anywhere in the package and no
"TN448" key is registered. -/
def ParserRegistry : List (String × ParserCtor) :=
  [("Gradients4", ParserCtor.gradients4),
   ("Gradients5", ParserCtor.gradients5),
   ("Kilo Moana", ParserCtor.kiloMoana),
   ("TN427", ParserCtor.tn427),
   ("TARA", ParserCtor.tara)]

/-- Go map lookup `ParserRegistry[name]`. -/
def registryLookup (name : String) : Option ParserCtor :=
  (ParserRegistry.find? (fun p => p.1 == name)).map Prod.snd

/-! ### DataManager (parse/data_manager.go) -/

/-- Lookup in a Go `map[string]string` embedded as an association list (the
most recently inserted binding for a key is the only one kept). -/
def lookupVal (m : List (Str × Str)) (k : Str) : Option Str :=
  (m.find? (fun p => p.1 = k)).map Prod.snd

/-- `parse.DataManager`. Of the `tsdata.Tsdata` metadata only the column
names `Headers` are consulted by the code under verification, so only they
are carried. -/
structure DataManager where
  throttle : Throttle
  t : Int := 0
  values : List (Str × Str) := []
  errors : List Str := []
  metadataHeaders : List Str
  deriving Repr, DecidableEq

/-- `DataManager.SetTime`. -/
def DataManager.SetTime (dm : DataManager) (t : Int) : DataManager :=
  { dm with t := t }

/-- `DataManager.AddValue`: Go map assignment `dm.values[key] = value`. -/
def DataManager.AddValue (dm : DataManager) (k v : Str) : DataManager :=
  { dm with values := (k, v) :: dm.values.filter (fun p => ¬(p.1 = k)) }

/-- `DataManager.AddError`. -/
def DataManager.AddError (dm : DataManager) (e : Str) : DataManager :=
  { dm with errors := dm.errors ++ [e] }

/-- `DataManager.GetValue`. -/
def DataManager.GetValue (dm : DataManager) (k : Str) : Option Str :=
  lookupVal dm.values k

/-- The value-building loop of `GetData`:
`d.Values = make([]string, len(Headers)-1)` (zero value: empty strings)
followed by `d.Values[i-1] = dm.values[k]` for each non-"time" header `k` at
index `i`. A write at `i-1` out of bounds panics in Go (possible only when
`Headers` violates the Tsdata invariant `Headers[0] = "time"`); `List.set`
ignores such writes, and every theorem below assumes the invariant, under
which all writes are in bounds. -/
def buildValues (headers : List Str) (m : List (Str × Str)) : List Str :=
  headers.enum.foldl
    (fun acc ik =>
      if ik.2 = "time".data then acc
      else acc.set (ik.1 - 1) ((lookupVal m ik.2).getD []))
    (List.replicate (headers.length - 1) [])

/-- `DataManager.GetData`. Returns the (possibly empty) record together with
the updated manager (the Go method mutates the receiver). -/
def DataManager.GetData (dm : DataManager) : Data × DataManager :=
  let allValuesPresent := dm.metadataHeaders.all (fun h =>
    if h = "time".data then !(dm.t == 0) else (lookupVal dm.values h).isSome)
  if allValuesPresent then
    let d0 : Data :=
      { Time := dm.t, Values := buildValues dm.metadataHeaders dm.values,
        Errors := dm.errors }
    let r := dm.throttle.Limit d0
    (r.2, { dm with throttle := r.1, t := 0, values := [], errors := [] })
  else ({}, dm)

/-! ### Disk storage (storage/storage.go)

The directory is fixed (the claims all concern one directory), so a file
path is `filePrefix ++ feed ++ fileExt` and the file system is a path →
contents map. `bufio.Writer` buffering is modelled as one buffer per feed
whose contents reach the file at `Flush`/`Close`; automatic flushing of a
full buffer moves the same bytes earlier and is not modelled (the claims
observe contents only after `Close`). `MkdirAll`, buffer sizes and I/O
errors are elided. -/

/-- A file system: path → contents, as an insert-front association list. -/
abbrev FileMap := List (Str × Str)

/-- Contents of a path, if the file exists. -/
def fsLookup (fs : FileMap) (path : Str) : Option Str :=
  (fs.find? (fun p => p.1 = path)).map Prod.snd

/-- Set the contents of a path. -/
def fsSet (fs : FileMap) (path : Str) (content : Str) : FileMap :=
  (path, content) :: fs.filter (fun p => ¬(p.1 = path))

/-- `os.OpenFile(path, O_CREATE|O_APPEND|O_WRONLY, ...)`: create the file
empty when missing, leave it alone otherwise. -/
def fsCreate (fs : FileMap) (path : Str) : FileMap :=
  match fsLookup fs path with
  | some _ => fs
  | none => (path, []) :: fs

/-- Append bytes to a file opened in append mode. -/
def fsAppend (fs : FileMap) (path : Str) (s : Str) : FileMap :=
  fsSet fs path (((fsLookup fs path).getD []) ++ s)

/-- Replace a feed's binding in a buffer map. -/
def outSet (m : List (Str × Str)) (k v : Str) : List (Str × Str) :=
  (k, v) :: m.filter (fun p => ¬(p.1 = k))

/-- `storage.DiskStorage`: the file-name pieces and the per-feed buffered
writers (`dir` fixed, `files`/`buffSize` elided as explained above). `pfx`
and `ext` are the Go fields `filePrefix` and `fileExt`. -/
structure DiskStorage where
  pfx : Str
  ext : Str
  out : List (Str × Str) := []
  deriving Repr, DecidableEq

/-- `DiskStorage.FeedPath`. -/
def DiskStorage.FeedPath (st : DiskStorage) (feed : Str) : Str :=
  st.pfx ++ feed ++ st.ext

/-- `DiskStorage.setOutput`: open (create+append) the feed file and install
a fresh empty buffer. -/
def DiskStorage.setOutput (st : DiskStorage) (fs : FileMap) (feed : Str) :
    DiskStorage × FileMap :=
  ({ st with out := outSet st.out feed [] }, fsCreate fs (st.FeedPath feed))

/-- `DiskStorage.WriteString`: lazily open the feed on first use, then write
into its buffer. -/
def DiskStorage.WriteString (st : DiskStorage) (fs : FileMap) (feed s : Str) :
    DiskStorage × FileMap :=
  match lookupVal st.out feed with
  | some buf => ({ st with out := outSet st.out feed (buf ++ s) }, fs)
  | none =>
      let r := st.setOutput fs feed
      ({ r.1 with out := outSet r.1.out feed s }, r.2)

/-- `DiskStorage.hasData`: whether the feed file already has bytes on disk.
(`writeHeader` only calls it after `setOutput`, so the file exists.) -/
def DiskStorage.hasData (st : DiskStorage) (fs : FileMap) (feed : Str) : Bool :=
  ((fsLookup fs (st.FeedPath feed)).getD []).length > 0

/-- Header normalization inside `writeHeader`: append a final newline to a
nonempty header that lacks one. -/
def normalizeHeader (header : Str) : Str :=
  if header ≠ [] ∧ header.getLast? ≠ some '\n' then header ++ ['\n'] else header

/-- `DiskStorage.writeHeader`: open the feed if needed, then buffer the
normalized header only when the file is empty. -/
def DiskStorage.writeHeader (st : DiskStorage) (fs : FileMap) (feed header : Str) :
    DiskStorage × FileMap :=
  let r := match lookupVal st.out feed with
           | some _ => (st, fs)
           | none => st.setOutput fs feed
  if r.1.hasData r.2 feed then (r.1, r.2)
  else r.1.WriteString r.2 feed (normalizeHeader header)

/-- `NewDiskStorage`: open every declared feed and write headers where the
file is empty (the Go map iteration becomes a list fold). -/
def NewDiskStorage (pfx ext : Str) (feedHeaders : List (Str × Str)) (fs : FileMap) :
    DiskStorage × FileMap :=
  feedHeaders.foldl (fun acc fh => acc.1.writeHeader acc.2 fh.1 fh.2)
    ({ pfx := pfx, ext := ext, out := [] }, fs)

/-- `DiskStorage.Flush`: write out and empty every buffer. -/
def DiskStorage.Flush (st : DiskStorage) (fs : FileMap) : DiskStorage × FileMap :=
  ({ st with out := st.out.map (fun p => (p.1, ([] : Str))) },
   st.out.foldl (fun acc p => fsAppend acc (st.FeedPath p.1) p.2) fs)

/-- `DiskStorage.Close`: flush, then close all files (afterwards only the
file system remains). -/
def DiskStorage.Close (st : DiskStorage) (fs : FileMap) : FileMap :=
  (st.Flush fs).2

/-- Construct a storage against a directory and close it again. -/
def openClose (pfx ext : Str) (feeds : List (Str × Str)) (fs : FileMap) : FileMap :=
  let r := NewDiskStorage pfx ext feeds fs
  DiskStorage.Close r.1 r.2

/-! ### Shared string primitives (Go standard library, as used by the code) -/

/-- ASCII decimal digit. -/
def isDigitChar (c : Char) : Bool :=
  48 ≤ c.toNat && c.toNat ≤ 57

/-- The character for a decimal digit `d < 10`. -/
def digitChar (d : Nat) : Char :=
  Char.ofNat (48 + d)

/-- Decimal digits of `n`, most significant first (`[]` for zero); the fuel
only bounds the digit count, `n + 1` always suffices. -/
def decCharsAux : Nat → Nat → Str
  | 0, _ => []
  | fuel + 1, n => if n = 0 then [] else decCharsAux fuel (n / 10) ++ [digitChar (n % 10)]

/-- `fmt.Sprintf("%d", n)` for a natural number. -/
def decChars (n : Nat) : Str :=
  if n = 0 then ['0'] else decCharsAux (n + 1) n

/-- Value of a digit string, most significant digit first. -/
def digitsVal (s : Str) : Nat :=
  s.foldl (fun a c => a * 10 + (c.toNat - 48)) 0

/-- Parse a nonempty all-digit string. -/
def parseDigits (s : Str) : Option Nat :=
  if s.isEmpty then none
  else if s.all isDigitChar then some (digitsVal s) else none

/-- `strconv.Atoi`. Overflow of Go's `int` is not modelled (the numbers
handled here are tiny). -/
def goAtoi (s : Str) : Option Int :=
  match s with
  | [] => none
  | c :: rest =>
      if c = '+' then (parseDigits rest).map (fun (n : Nat) => (n : Int))
      else if c = '-' then (parseDigits rest).map (fun (n : Nat) => -(n : Int))
      else (parseDigits s).map (fun (n : Nat) => (n : Int))

/-- `bytes.IndexByte`. -/
def indexOfChar (s : Str) (c : Char) : Option Nat :=
  match s with
  | [] => none
  | a :: rest => if a = c then some 0 else (indexOfChar rest c).map (fun i => i + 1)

/-- `strings.Split(s, sep)` for a one-character separator. Like Go's, the
result always has one more part than there are separators (it is never
empty). -/
def splitChar (sep : Char) : Str → List Str
  | [] => [[]]
  | c :: rest =>
      if c = sep then [] :: splitChar sep rest
      else
        match splitChar sep rest with
        | [] => [[c]]
        | t :: ts => (c :: t) :: ts

/-! ### float64 values (`strconv.ParseFloat`, `fmt.Sprintf("%.4f", _)`)

A float64 is an exact rational (carried as an explicit integer fraction
`Frac`, whose mathematical value is `Frac.val : ℚ`), an infinity, or NaN.
Exact rationals are faithful here because every branch decision in the geo
code compares against exactly representable constants (60, 90, 180) and the
emitted values are rounded to four decimal places, so binary rounding never
changes an accept/reject decision or a bound in the theorems below. Not
modelled: hexadecimal float syntax and digit-group underscores (both
rejected by this embedding though Go accepts them), overflow of huge
decimals to ±Inf with ErrRange (this embedding keeps the exact value, which
the geo range checks reject just as Go's error path does), and `%.4f`
breaking a tie at the fifth decimal toward even rather than up. -/

/-- An exact rational `num / den`; every operation below keeps `den`
positive. (An unreduced pair rather than `ℚ` so that all computation is
plain integer arithmetic.) -/
structure Frac where
  num : Int
  den : Int
  deriving Repr, DecidableEq

/-- The rational value of a fraction. -/
def Frac.val (a : Frac) : ℚ := (a.num : ℚ) / (a.den : ℚ)

/-- Exact addition. -/
def Frac.add (a b : Frac) : Frac :=
  ⟨a.num * b.den + b.num * a.den, a.den * b.den⟩

/-- Exact division by a positive integer constant. -/
def Frac.divP (a : Frac) (c : Int) : Frac :=
  ⟨a.num, a.den * c⟩

/-- Negation. -/
def Frac.neg (a : Frac) : Frac :=
  ⟨-a.num, a.den⟩

/-- Multiplication by `10 ^ ex` for a signed exponent. -/
def Frac.mulPow10 (a : Frac) (ex : Int) : Frac :=
  if 0 ≤ ex then ⟨a.num * 10 ^ ex.toNat, a.den⟩ else ⟨a.num, a.den * 10 ^ (-ex).toNat⟩

/-- `a > c` for an integer constant `c`, given `0 < a.den`. -/
def Frac.gtI (a : Frac) (c : Int) : Bool :=
  a.num > c * a.den

inductive GoFloat where
  | finite (f : Frac)
  | inf (neg : Bool)
  | nan
  deriving Repr, DecidableEq

/-- ASCII lower-casing, as used by Go's case-insensitive match of the
special values "inf", "infinity", "nan". -/
def lowerChar (c : Char) : Char :=
  if 65 ≤ c.toNat ∧ c.toNat ≤ 90 then Char.ofNat (c.toNat + 32) else c

/-- ASCII upper-casing (`strings.ToUpper` on the ASCII direction letters). -/
def upperChar (c : Char) : Char :=
  if 97 ≤ c.toNat ∧ c.toNat ≤ 122 then Char.ofNat (c.toNat - 32) else c

/-- Longest digit prefix and the remainder. -/
def spanDigits : Str → Str × Str
  | [] => ([], [])
  | c :: r =>
      if isDigitChar c then
        let p := spanDigits r
        (c :: p.1, p.2)
      else ([], c :: r)

/-- The decimal-mantissa part of `strconv.ParseFloat`: digits with an
optional fractional point (at least one digit overall) and an optional
`e`/`E` exponent. The value is `intpart + fracpart / 10 ^ fracdigits`,
scaled by the exponent. -/
def goParseDecimal (neg : Bool) (s : Str) : Option GoFloat :=
  let ipr := spanDigits s
  let fpr := match ipr.2 with
             | c :: r => if c = '.' then spanDigits r else ([], ipr.2)
             | [] => ([], ipr.2)
  if ipr.1 = [] ∧ fpr.1 = [] then none
  else
    let mant : Frac :=
      Frac.add ⟨digitsVal ipr.1, 1⟩ ⟨digitsVal fpr.1, 10 ^ fpr.1.length⟩
    let signed : Frac → GoFloat := fun v => GoFloat.finite (if neg then v.neg else v)
    match fpr.2 with
    | [] => some (signed mant)
    | e :: r3 =>
        if e = 'e' ∨ e = 'E' then
          match goAtoi r3 with
          | some ex => some (signed (mant.mulPow10 ex))
          | none => none
        else none

/-- `strconv.ParseFloat(s, 64)` (`none` is a non-nil error). -/
def goParseFloat (s : Str) : Option GoFloat :=
  match s with
  | [] => none
  | c :: rest =>
      let nr : Bool × Str :=
        if c = '+' then (false, rest)
        else if c = '-' then (true, rest)
        else (false, c :: rest)
      let low := nr.2.map lowerChar
      if low = "inf".data ∨ low = "infinity".data then some (GoFloat.inf nr.1)
      else if low = "nan".data then some GoFloat.nan
      else goParseDecimal nr.1 nr.2

/-- `x > c` on float64 against an integer constant (NaN compares false). -/
def GoFloat.gtQ (x : GoFloat) (c : Int) : Bool :=
  match x with
  | GoFloat.finite f => f.gtI c
  | GoFloat.inf neg => !neg
  | GoFloat.nan => false

/-- float64 addition (overflow to infinity not modelled). -/
def GoFloat.add : GoFloat → GoFloat → GoFloat
  | GoFloat.nan, _ => GoFloat.nan
  | _, GoFloat.nan => GoFloat.nan
  | GoFloat.inf a, GoFloat.inf b => if a = b then GoFloat.inf a else GoFloat.nan
  | GoFloat.inf a, GoFloat.finite _ => GoFloat.inf a
  | GoFloat.finite _, GoFloat.inf b => GoFloat.inf b
  | GoFloat.finite a, GoFloat.finite b => GoFloat.finite (a.add b)

/-- Division of a float64 by a positive integer constant. -/
def GoFloat.divPos (x : GoFloat) (c : Int) : GoFloat :=
  match x with
  | GoFloat.finite f => GoFloat.finite (f.divP c)
  | GoFloat.inf n => GoFloat.inf n
  | GoFloat.nan => GoFloat.nan

/-- float64 negation (`-1 * x`). -/
def GoFloat.negate : GoFloat → GoFloat
  | GoFloat.finite f => GoFloat.finite f.neg
  | GoFloat.inf n => GoFloat.inf (!n)
  | GoFloat.nan => GoFloat.nan

/-- Zero-padded four-digit field. -/
def pad4 (n : Nat) : Str :=
  List.replicate (4 - (decChars n).length) '0' ++ decChars n

/-- `round (f.val * 10000)` as integer arithmetic: for a positive
denominator, `⌊(n·10⁴)/d + 1/2⌋ = ⌊(2·n·10⁴ + d)/(2·d)⌋` (half-up
rounding). The range theorems below use only that the result lies within
half a unit of `f.val * 10⁴`, which holds for every tie-breaking rule, so
the half-even/half-up difference against Go's binary `%.4f` is immaterial
there. -/
def sprintf4Round (f : Frac) : Int :=
  Int.ediv (2 * f.num * 10000 + f.den) (2 * f.den)

/-- `fmt.Sprintf("%.4f", x)`: round to four decimal places and print with
exactly four fractional digits. -/
def sprintf4 (x : GoFloat) : Str :=
  match x with
  | GoFloat.nan => "NaN".data
  | GoFloat.inf false => "+Inf".data
  | GoFloat.inf true => "-Inf".data
  | GoFloat.finite f =>
      let k : Int := sprintf4Round f
      (if k < 0 then ['-'] else [])
        ++ decChars (k.natAbs / 10000) ++ '.' :: pad4 (k.natAbs % 10000)

/-! ### Geo conversion (geo/geo.go: `GGALat2DD`, `GGALon2DD`) -/

/-- `geo.GGALat2DD` (`none` is a non-nil error; `some s` the emitted
decimal-degree string). -/
def GGALat2DD (lat ns : Str) : Option Str :=
  let signed : Bool :=
    match lat with
    | c :: _ => (c == '-') || (c == '+')
    | [] => false
  if signed then none
  else if lat.length < 4 then none
  else
    match goParseFloat (lat.take 2) with
    | none => none
    | some deg =>
        match goParseFloat (lat.drop 2) with
        | none => none
        | some min =>
            if deg.gtQ 90 then none
            else if min.gtQ 60 then none
            else
              let v := deg.add (min.divPos 60)
              if ns.map upperChar = "N".data then some (sprintf4 v)
              else if ns.map upperChar = "S".data then some (sprintf4 v.negate)
              else none

/-- `geo.GGALon2DD`. -/
def GGALon2DD (lon ew : Str) : Option Str :=
  let signed : Bool :=
    match lon with
    | c :: _ => (c == '-') || (c == '+')
    | [] => false
  if signed then none
  else if lon.length < 5 then none
  else
    match goParseFloat (lon.take 3) with
    | none => none
    | some deg =>
        match goParseFloat (lon.drop 3) with
        | none => none
        | some min =>
            if deg.gtQ 180 then none
            else if min.gtQ 60 then none
            else
              let v := deg.add (min.divPos 60)
              if ew.map upperChar = "E".data then some (sprintf4 v)
              else if ew.map upperChar = "W".data then some (sprintf4 v.negate)
              else none

/-! ### `time.Parse(time.RFC3339, _)` for the strings built by the
double-colon parsers: `YYYY-MM-DDTHH:MM:SSZ`. Offsets and fractional
seconds, which Go would also accept, are unreachable from the call site
(the parsers always append "Z" after a fixed-width clock) and unmodelled.
The instant is returned as seconds from 0001-01-01T00:00:00Z (Go's zero
time) on the proleptic Gregorian calendar. -/

/-- Exactly `n` leading digits, returning their value and the remainder. -/
def parseNDigits (n : Nat) (s : Str) : Option (Nat × Str) :=
  if (s.take n).length = n ∧ (s.take n).all isDigitChar
  then some (digitsVal (s.take n), s.drop n) else none

/-- Consume one expected character. -/
def expectChar (c : Char) : Str → Option Str
  | d :: r => if d = c then some r else none
  | [] => none

def isLeapYear (y : Nat) : Bool :=
  (y % 4 == 0 && y % 100 != 0) || y % 400 == 0

def daysInMonth (y m : Nat) : Nat :=
  if m = 2 then (if isLeapYear y then 29 else 28)
  else if m = 4 ∨ m = 6 ∨ m = 9 ∨ m = 11 then 30
  else 31

/-- Days in the year strictly before month `m` (1-based). -/
def daysBeforeMonth (y m : Nat) : Nat :=
  (List.range (m - 1)).foldl (fun acc i => acc + daysInMonth y (i + 1)) 0

/-- Days from 0001-01-01 to the given civil date. -/
def daysFromCivil (y m d : Nat) : Nat :=
  365 * (y - 1) + ((y - 1) / 4 - (y - 1) / 100 + (y - 1) / 400)
    + daysBeforeMonth y m + (d - 1)

/-- `time.Parse(time.RFC3339, s)` for `YYYY-MM-DDTHH:MM:SSZ` inputs: the
exact fixed-width shape (four digit groups with their separators and the
final `Z`, twenty characters in all), then the calendar range checks. -/
def goTimeParseRFC3339 (s : Str) : Option Int :=
  if s.length = 20
      ∧ (s.take 4).all isDigitChar
      ∧ s.getD 4 ' ' = '-'
      ∧ ((s.drop 5).take 2).all isDigitChar
      ∧ s.getD 7 ' ' = '-'
      ∧ ((s.drop 8).take 2).all isDigitChar
      ∧ s.getD 10 ' ' = 'T'
      ∧ ((s.drop 11).take 2).all isDigitChar
      ∧ s.getD 13 ' ' = ':'
      ∧ ((s.drop 14).take 2).all isDigitChar
      ∧ s.getD 16 ' ' = ':'
      ∧ ((s.drop 17).take 2).all isDigitChar
      ∧ s.getD 19 ' ' = 'Z' then
    let y := digitsVal (s.take 4)
    let mo := digitsVal ((s.drop 5).take 2)
    let d := digitsVal ((s.drop 8).take 2)
    let h := digitsVal ((s.drop 11).take 2)
    let mi := digitsVal ((s.drop 14).take 2)
    let sec := digitsVal ((s.drop 17).take 2)
    if 1 ≤ mo ∧ mo ≤ 12 ∧ 1 ≤ d ∧ d ≤ daysInMonth y mo
        ∧ h ≤ 23 ∧ mi ≤ 59 ∧ sec ≤ 59 then
      some ((daysFromCivil y mo d : Int) * 86400 + h * 3600 + mi * 60 + sec)
    else none
  else none

/-! ### Gradients5Parser (parse/gradients5.go) -/

/-- `strings.TrimSpace` (ASCII white space; the feeds are ASCII). -/
def isSpaceChar (c : Char) : Bool :=
  c.toNat == 32 || (9 ≤ c.toNat && c.toNat ≤ 13)

def trimSpace (s : Str) : Str :=
  ((s.dropWhile isSpaceChar).reverse.dropWhile isSpaceChar).reverse

/-- First position where `sep` occurs (`strings.Index`). -/
def findSub (sep : Str) : Str → Option Nat
  | [] => none
  | c :: r =>
      if sep.isPrefixOf (c :: r) then some 0
      else (findSub sep r).map (fun i => i + 1)

def splitSubAux (sep : Str) : Nat → Str → List Str
  | 0, s => [s]
  | fuel + 1, s =>
      match findSub sep s with
      | none => [s]
      | some i => s.take i :: splitSubAux sep fuel (s.drop (i + sep.length))

/-- `strings.Split(s, sep)` for a nonempty separator (fuel `length + 1`
suffices: every found occurrence advances at least one character). -/
def splitSub (sep s : Str) : List Str :=
  splitSubAux sep (s.length + 1) s

/-- `tsdata.NA`. -/
def tsdataNA : Str := "NA".data

/-- The `Headers` of the Gradients5 Tsdata metadata. -/
def g5Headers : List Str :=
  ["time".data, "lat".data, "lon".data, "temp".data,
   "conductivity".data, "salinity".data, "par".data]

/-- Error tags; the `fmt.Errorf` message suffixes (offending line quoted,
wrapped cause) carry no behavior and are elided. -/
def g5ErrZDA : Str := "Gradients5Parser: bad GPZDA".data

def g5ErrGGA : Str := "Gradients5Parser: bad GPGGA".data

def g5ErrGGALat : Str := "Gradients5Parser: bad GPGGA lat".data

def g5ErrGGALon : Str := "Gradients5Parser: bad GPGGA lon".data

def g5ErrTSG : Str := "Gradients5Parser: bad TSG".data

def g5ErrPPAR : Str := "Gradients5Parser: bad PPAR".data

def g5ErrPAR : Str := "Gradients5Parser: bad PAR float".data

/-- `Gradients5Parser.ParseLine`. The parser state is its embedded
`Throttle`; the method returns the (possibly zero) `Data` and mutates the
throttle, so the embedding returns both. `none` embeds a runtime panic (the
unguarded `parFields[1]` index). The `else` block that would parse the
three TSG floats is commented out in the source, so an exactly-4-field TSG
group adds no temp/conductivity/salinity values. -/
def gradients5ParseLine (th : Throttle) (line : Str) : Option (Data × Throttle) :=
  let clean := trimSpace line
  if ¬("$SEAFLOW".data.isPrefixOf clean) then some ({}, th)
  else
    let fields := splitSub "::".data clean
    if fields.length ≠ 5 then some ({}, th)
    else
      let timeFields := splitChar ',' (fields.getD 1 [])
      if timeFields.length ≠ 7 then some ({ Errors := [g5ErrZDA] }, th)
      else if (timeFields.getD 1 []).length ≠ 9 then some ({ Errors := [g5ErrZDA] }, th)
      else
        let tf1 := timeFields.getD 1 []
        let timestr := tf1.take 2 ++ ':' :: ((tf1.drop 2).take 2)
          ++ ':' :: ((tf1.drop 4).take 2)
        let datestr := timeFields.getD 4 [] ++ '-' :: timeFields.getD 3 []
          ++ '-' :: timeFields.getD 2 []
        match goTimeParseRFC3339 (datestr ++ 'T' :: timestr ++ ['Z']) with
        | none => some ({ Errors := [g5ErrZDA] }, th)
        | some t =>
            let latLonFields := splitChar ',' (fields.getD 2 [])
            if latLonFields.length ≠ 15 then some ({ Errors := [g5ErrGGA] }, th)
            else
              match GGALat2DD (latLonFields.getD 2 []) (latLonFields.getD 3 []) with
              | none => some ({ Errors := [g5ErrGGALat] }, th)
              | some latdd =>
                  match GGALon2DD (latLonFields.getD 4 []) (latLonFields.getD 5 []) with
                  | none => some ({ Errors := [g5ErrGGALon] }, th)
                  | some londd =>
                      let values1 := [("lat".data, latdd), ("lon".data, londd)]
                      let tsgFields := splitChar ',' (fields.getD 3 [])
                      let ve : List (Str × Str) × List Str :=
                        if tsgFields.length ≠ 4 then
                          (values1 ++ [("temp".data, tsdataNA),
                            ("conductivity".data, tsdataNA),
                            ("salinity".data, tsdataNA)], [g5ErrTSG])
                        else (values1, [])
                      let parFields := splitChar ',' (fields.getD 4 [])
                      let errs := ve.2 ++ (if parFields.length < 2 then [g5ErrPPAR] else [])
                      match parFields.get? 1 with
                      | none => none
                      | some pf1 =>
                          let parStr := trimSpace pf1
                          let parNumberFields := splitChar '.' pf1
                          if (goParseFloat parStr).isNone
                              ∨ parNumberFields.length ≠ 2
                              ∨ (parNumberFields.getD 1 []).length ≠ 3 then
                            some ({ Errors := errs ++ [g5ErrPAR] }, th)
                          else
                            let values := ve.1 ++ [("par".data, parStr)]
                            if values.length = 6 then
                              let d0 : Data :=
                                { Time := t,
                                  Values := buildValues g5Headers values,
                                  Errors := errs }
                              let r := th.Limit d0
                              some (r.2, r.1)
                            else some ({ Errors := errs }, th)

/-! ### RAWUDP envelope (rawudp/rawudp.go: `WrapUDPPayload`, `scanRawUDP`,
`RawUDPReader`) -/

/-- The header magic "=== RAWUDP,". -/
def rawUDPMagic : Str := "=== RAWUDP,".data

/-- `WrapUDPPayload(ts, payload)`. The `TimeSource` argument is embedded as
the already-formatted `ts.Now().UTC().Format(time.RFC3339)` string `ts`;
every such timestamp contains no comma and no newline. -/
def WrapUDPPayload (ts : Str) (payload : Str) : Str :=
  rawUDPMagic ++ ts ++ [','] ++ decChars payload.length ++ ['\n'] ++ payload ++ ['\n']

/-- A well-formed timestamp string for a RAWUDP header: no comma, no
newline (true of every RFC3339 UTC timestamp). -/
def tsOK (ts : Str) : Prop := (',' ∉ ts) ∧ ('\n' ∉ ts)

instance (ts : Str) : Decidable (tsOK ts) := by
  unfold tsOK
  infer_instance

/-- Result of a `bufio.SplitFunc` call: `more` is Go's `(0, nil, nil)`
(request more data mid-stream; stop at EOF), `tok` is a produced token with
its advance count, `err` is a returned error. -/
inductive ScanResult where
  | more
  | tok (advance : Nat) (token : Str)
  | err (msg : String)
  deriving Repr, DecidableEq

/-- `scanRawUDP(data, atEOF)`. A negative parsed payload length makes the Go
code slice with a high bound below the low bound, a runtime panic; that case
is embedded as an error result (it is unreachable from well-formed input). -/
def scanRawUDP (data : Str) (atEOF : Bool) : ScanResult :=
  if atEOF ∧ data = [] then ScanResult.more
  else if rawUDPMagic.isPrefixOf data then
    match indexOfChar data '\n' with
    | some i =>
        let line := data.take i
        let parts := splitChar ',' line
        if parts.length ≠ 3 then ScanResult.err "bad RAWUDP header"
        else
          match goAtoi (parts.getD 2 []) with
          | none => ScanResult.err "bad RAWUDP length"
          | some payloadLen =>
              if payloadLen < 0 then ScanResult.err "panic: slice bounds out of range"
              else
                let pl := payloadLen.toNat
                let totalLen := (i + 1) + pl + 1
                if data.length ≥ totalLen then
                  if pl = 0 then ScanResult.tok totalLen []
                  else ScanResult.tok totalLen ((data.take (totalLen - 1)).drop (i + 1))
                else if !atEOF then ScanResult.more
                else ScanResult.err "incomplete RAWUDP payload"
    | none => ScanResult.more
  else
    if data.length < rawUDPMagic.length ∧ data.isPrefixOf rawUDPMagic then ScanResult.more
    else ScanResult.err "bad RAWUDP start"

/-- Fuel-driven drain of the scanner: `bufio.Scanner` repeatedly applies the
split function to the remaining data (here with the whole input buffered, so
`atEOF = true`), stops without error on `(0, nil, nil)`, and stops with the
split function's error otherwise. `RawUDPReader.Read` then serves the
concatenation of the returned tokens. -/
def scanAllAux : Nat → Str → Except String (List Str)
  | 0, _ => Except.error "out of fuel"
  | fuel + 1, data =>
      match scanRawUDP data true with
      | ScanResult.more => Except.ok []
      | ScanResult.err e => Except.error e
      | ScanResult.tok advance token =>
          match scanAllAux fuel (data.drop advance) with
          | Except.ok toks => Except.ok (token :: toks)
          | Except.error e => Except.error e

/-- All payload tokens extracted from a byte stream (each `tok` consumes at
least two bytes, so `length + 1` units of fuel always suffice). -/
def scanAll (data : Str) : Except String (List Str) :=
  scanAllAux (data.length + 1) data

end Cruisemic

namespace Cruisemic

/-! ## Theorems -/

/-- The whitelist loop is exactly an order-preserving filter. -/
theorem whitelistLoop_eq_filter (b : Str) : whitelistLoop b = b.filter isWhitelisted := by
  induction b with
  | nil => rfl
  | cons c rest ih =>
      by_cases h : isWhitelisted c <;> simp [whitelistLoop, List.filter, h, ih]

theorem whitelistLoop_idem (b : Str) :
    whitelistLoop (whitelistLoop b) = whitelistLoop b := by
  simp [whitelistLoop_eq_filter]

/-! ### Decimal digit strings -/

theorem digitChar_toNat (d : Nat) (h : d < 10) : (digitChar d).toNat = 48 + d := by
  interval_cases d <;> decide

theorem isDigitChar_digitChar (d : Nat) (h : d < 10) : isDigitChar (digitChar d) = true := by
  interval_cases d <;> decide

theorem decCharsAux_eq_digits (fuel n : Nat) (h : n < fuel) :
    decCharsAux fuel n = (Nat.digits 10 n).reverse.map digitChar := by
  induction fuel generalizing n with
  | zero => omega
  | succ fuel ih =>
      by_cases hn : n = 0
      · subst hn
        simp [decCharsAux]
      · rw [decCharsAux, if_neg hn]
        have hdiv : n / 10 < fuel := by
          have h1 : n / 10 < n := Nat.div_lt_self (Nat.pos_of_ne_zero hn) (by norm_num)
          omega
        rw [ih (n / 10) hdiv]
        rw [Nat.digits_def' (by norm_num : (1 : ℕ) < 10) (Nat.pos_of_ne_zero hn)]
        simp

/-- The fuelled digit printer agrees with `Nat.digits`. -/
theorem decChars_eq (n : Nat) :
    decChars n = if n = 0 then ['0'] else (Nat.digits 10 n).reverse.map digitChar := by
  unfold decChars
  split
  · rfl
  · exact decCharsAux_eq_digits (n + 1) n (Nat.lt_succ_self n)

theorem decChars_ne_nil (n : Nat) : decChars n ≠ [] := by
  rw [decChars_eq]
  split
  · simp
  · next h =>
      simp [List.map_eq_nil_iff, List.reverse_eq_nil_iff,
        Nat.digits_ne_nil_iff_ne_zero, h]

theorem mem_decChars_digit (n : Nat) (c : Char) (hc : c ∈ decChars n) :
    isDigitChar c = true := by
  rw [decChars_eq] at hc
  split at hc
  · simp at hc
    subst hc
    decide
  · rcases List.mem_map.mp hc with ⟨d, hd, rfl⟩
    exact isDigitChar_digitChar d (Nat.digits_lt_base (by norm_num) (List.mem_reverse.mp hd))

theorem digitsVal_rev_map (L : List Nat) (h : ∀ d ∈ L, d < 10) :
    digitsVal (L.reverse.map digitChar) = Nat.ofDigits 10 L := by
  induction L with
  | nil => simp [digitsVal]
  | cons d ds ih =>
      have hd : d < 10 := h d (List.mem_cons_self _ _)
      have hds : ∀ x ∈ ds, x < 10 := fun x hx => h x (List.mem_cons_of_mem _ hx)
      simp only [List.reverse_cons, List.map_append, List.map_cons, List.map_nil]
      unfold digitsVal
      rw [List.foldl_append]
      have := ih hds
      unfold digitsVal at this
      simp only [this, List.foldl_cons, List.foldl_nil, Nat.ofDigits_cons,
        digitChar_toNat d hd]
      omega

theorem digitsVal_decChars (n : Nat) : digitsVal (decChars n) = n := by
  rw [decChars_eq]
  split
  · subst n; decide
  · rw [digitsVal_rev_map _ (fun d hd => Nat.digits_lt_base (by norm_num) hd)]
    exact_mod_cast Nat.ofDigits_digits 10 n

theorem parseDigits_decChars (n : Nat) : parseDigits (decChars n) = some n := by
  unfold parseDigits
  rw [if_neg, if_pos, digitsVal_decChars]
  · exact List.all_eq_true.mpr (fun c hc => mem_decChars_digit n c hc)
  · simpa [List.isEmpty_iff] using decChars_ne_nil n

theorem goAtoi_decChars (n : Nat) : goAtoi (decChars n) = some (n : Int) := by
  rcases hd : decChars n with _ | ⟨c, rest⟩
  · exact absurd hd (decChars_ne_nil n)
  · have hdig : isDigitChar c = true := by
      apply mem_decChars_digit n c
      rw [hd]; exact List.mem_cons_self _ _
    have h48 : 48 ≤ c.toNat := by
      unfold isDigitChar at hdig
      simp at hdig
      exact_mod_cast hdig.1
    have hplus : ¬(c = '+') := fun he => by subst he; simp at h48
    have hminus : ¬(c = '-') := fun he => by subst he; simp at h48
    have hred : goAtoi (c :: rest)
        = if c = '+' then (parseDigits rest).map (fun (k : Nat) => (k : Int))
          else if c = '-' then (parseDigits rest).map (fun (k : Nat) => -(k : Int))
          else (parseDigits (c :: rest)).map (fun (k : Nat) => (k : Int)) := rfl
    rw [hred, if_neg hplus, if_neg hminus, ← hd, parseDigits_decChars]
    rfl

/-! ### indexOfChar and splitChar -/

theorem indexOfChar_append (A r : Str) (c : Char) (h : c ∉ A) :
    indexOfChar (A ++ c :: r) c = some A.length := by
  induction A with
  | nil => simp [indexOfChar]
  | cons a A ih =>
      have hne : ¬(a = c) := fun he => h (he ▸ List.mem_cons_self _ _)
      have hnm : c ∉ A := fun hm => h (List.mem_cons_of_mem _ hm)
      simp [indexOfChar, hne, ih hnm]

theorem splitChar_no_sep (C : Str) (sep : Char) (h : sep ∉ C) :
    splitChar sep C = [C] := by
  induction C with
  | nil => rfl
  | cons c rest ih =>
      have hne : ¬(c = sep) := fun he => h (he ▸ List.mem_cons_self _ _)
      have hnm : sep ∉ rest := fun hm => h (List.mem_cons_of_mem _ hm)
      simp [splitChar, hne, ih hnm]

theorem splitChar_append (A B : Str) (sep : Char) (h : sep ∉ A) :
    splitChar sep (A ++ sep :: B) = A :: splitChar sep B := by
  induction A with
  | nil => simp [splitChar]
  | cons a A ih =>
      have hne : ¬(a = sep) := fun he => h (he ▸ List.mem_cons_self _ _)
      have hnm : sep ∉ A := fun hm => h (List.mem_cons_of_mem _ hm)
      have := ih hnm
      simp only [List.cons_append, splitChar, if_neg hne, List.append_eq]
      rw [this]

/-! ### RAWUDP round trip -/

theorem rawUDPMagic_split : rawUDPMagic = "=== RAWUDP".data ++ [','] := by decide

theorem scanRawUDP_wrap (ts p D : Str) (h : tsOK ts) :
    scanRawUDP (WrapUDPPayload ts p ++ D) true
      = ScanResult.tok (WrapUDPPayload ts p).length p := by
  obtain ⟨hcomma, hnl⟩ := h
  have hLd : ∀ c ∈ decChars p.length, isDigitChar c = true :=
    fun c hcm => mem_decChars_digit _ c hcm
  have hLn : '\n' ∉ decChars p.length := fun hm => absurd (hLd _ hm) (by decide)
  have hLc : ',' ∉ decChars p.length := fun hm => absurd (hLd _ hm) (by decide)
  set L := decChars p.length with hL
  set A : Str := rawUDPMagic ++ (ts ++ (',' :: L)) with hA
  have hAn : '\n' ∉ A := by
    rw [hA]
    simp only [List.mem_append, List.mem_cons]
    push_neg
    exact ⟨by decide, hnl, by decide, hLn⟩
  have hdata : WrapUDPPayload ts p ++ D = A ++ '\n' :: (p ++ '\n' :: D) := by
    rw [hA]
    simp [WrapUDPPayload, List.append_assoc]
  have hwlen : (WrapUDPPayload ts p).length = A.length + 1 + p.length + 1 := by
    rw [hA]
    simp [WrapUDPPayload]
    ring
  have hsplit : splitChar ',' A = ["=== RAWUDP".data, ts, L] := by
    rw [hA, rawUDPMagic_split]
    rw [List.append_assoc, List.singleton_append]
    rw [splitChar_append _ _ _ (by decide)]
    rw [splitChar_append _ _ _ hcomma]
    rw [splitChar_no_sep _ _ hLc]
  have htake : (A ++ '\n' :: (p ++ '\n' :: D)).take ((A.length + 1 + p.length + 1) - 1)
      = A ++ '\n' :: p := by
    have hre : A ++ '\n' :: (p ++ '\n' :: D) = (A ++ '\n' :: p) ++ '\n' :: D := by
      simp [List.append_assoc]
    rw [hre]
    apply List.take_left'
    simp
    omega
  have hdrop : (A ++ '\n' :: p).drop (A.length + 1) = p := by
    have hre : A ++ '\n' :: p = (A ++ ['\n']) ++ p := by
      simp [List.append_assoc]
    rw [hre]
    apply List.drop_left'
    simp
  rw [hdata]
  unfold scanRawUDP
  rw [if_neg (by simp)]
  rw [if_pos (by
    rw [hA]
    exact (List.isPrefixOf_iff_prefix).mpr (List.prefix_append _ _))]
  rw [indexOfChar_append A _ '\n' hAn]
  simp only [List.take_append_of_le_length, List.take_left]
  rw [hsplit]
  rw [if_neg (by simp)]
  have hgetD : ["=== RAWUDP".data, ts, L].getD 2 [] = L := rfl
  rw [hgetD, hL, goAtoi_decChars]
  simp only [Int.toNat_natCast]
  rw [if_neg (by omega : ¬((List.length p : Int) < 0))]
  rw [if_pos (by simp only [List.length_append, List.length_cons]; omega)]
  by_cases hp : p.length = 0
  · rw [if_pos hp]
    obtain rfl : p = [] := List.length_eq_zero.mp hp
    simp [hwlen]
  · rw [if_neg hp]
    rw [htake, hdrop, hwlen]

theorem wrapUDPPayload_length_pos (ts p : Str) : 0 < (WrapUDPPayload ts p).length := by
  simp [WrapUDPPayload]

theorem scanAllAux_wraps (envs : List (Str × Str)) :
    ∀ fuel : Nat, (∀ e ∈ envs, tsOK e.1) →
      ((envs.map (fun e => WrapUDPPayload e.1 e.2)).flatten).length < fuel →
      scanAllAux fuel ((envs.map (fun e => WrapUDPPayload e.1 e.2)).flatten)
        = Except.ok (envs.map Prod.snd) := by
  induction envs with
  | nil =>
      intro fuel _ hf
      match fuel, hf with
      | fuel + 1, _ => simp [scanAllAux, scanRawUDP]
  | cons e rest ih =>
      intro fuel hts hf
      match fuel, hf with
      | fuel + 1, hf =>
        have hW := scanRawUDP_wrap e.1 e.2
          ((rest.map (fun x => WrapUDPPayload x.1 x.2)).flatten)
          (hts e (List.mem_cons_self _ _))
        have hpos := wrapUDPPayload_length_pos e.1 e.2
        simp only [List.map_cons, List.flatten_cons] at hf ⊢
        simp only [scanAllAux, hW, List.drop_left]
        rw [ih fuel (fun x hx => hts x (List.mem_cons_of_mem _ hx))
          (by simp only [List.length_append] at hf; omega)]

/-- C7: wrapping any sequence of payloads with `WrapUDPPayload` (each header
carrying an RFC3339 UTC timestamp, hence comma- and newline-free) and
scanning the concatenated envelopes back through the `RawUDPReader` split
function recovers exactly the payload sequence, ending in clean EOF;
zero-length payloads come back as empty tokens and contribute nothing to the
concatenated byte stream. -/
theorem c7_rawudp_wrap_unwrap_roundtrip (envs : List (Str × Str))
    (hts : ∀ e ∈ envs, tsOK e.1) :
    scanAll ((envs.map (fun e => WrapUDPPayload e.1 e.2)).flatten)
      = Except.ok (envs.map Prod.snd) :=
  scanAllAux_wraps envs _ hts (Nat.lt_succ_self _)

/-! ### Whitelist, throttle, registry claims -/

/-- C9: for every buffer `b` and length `n ≤ len b`, `Whitelist(b, n)`
compacts into a prefix exactly the bytes of `b[:n]` lying in
`[0x20, 0x7E] ∪ {9, 10, 13}` in their original order, its length is at most
`n`, and applying `Whitelist` to the resulting prefix again returns it
unchanged. -/
theorem c9_whitelist_filter_and_idempotent (b : Str) (n : Nat) (_hn : n ≤ b.length) :
    Whitelist b n = (b.take n).filter isWhitelisted
    ∧ (∀ c ∈ Whitelist b n,
        (32 ≤ c.toNat ∧ c.toNat ≤ 126) ∨ c.toNat = 9 ∨ c.toNat = 10 ∨ c.toNat = 13)
    ∧ (Whitelist b n).length ≤ n
    ∧ Whitelist (Whitelist b n) (Whitelist b n).length = Whitelist b n := by
  refine ⟨whitelistLoop_eq_filter _, ?_, ?_, ?_⟩
  · intro c hc
    rw [Whitelist, whitelistLoop_eq_filter] at hc
    have := List.of_mem_filter hc
    unfold isWhitelisted at this
    simp only [Bool.or_eq_true, Bool.and_eq_true, decide_eq_true_eq, beq_iff_eq] at this
    tauto
  · calc (Whitelist b n).length
        ≤ (b.take n).length := by
          rw [Whitelist, whitelistLoop_eq_filter]
          exact List.length_filter_le _ _
      _ ≤ n := List.length_take_le _ _
  · unfold Whitelist
    rw [List.take_length]
    exact whitelistLoop_idem _

/-- Witness for C9 at a concrete buffer containing a NUL byte. -/
theorem c9_whitelist_witness :
    (3 : Nat) ≤ ("a".data ++ [Char.ofNat 0] ++ "\t".data).length
    ∧ Whitelist ("a".data ++ [Char.ofNat 0] ++ "\t".data) 3
        = (("a".data ++ [Char.ofNat 0] ++ "\t".data).take 3).filter isWhitelisted :=
  ⟨by decide,
   (c9_whitelist_filter_and_idempotent ("a".data ++ [Char.ofNat 0] ++ "\t".data) 3
     (by decide)).1⟩

/-- C5: for a throttle built by `NewThrottle i` (negative `i` clamped to 0)
in an arbitrary later state `recent`, and a record with non-zero time that is
not yet throttled: a zero `recent` adopts the record's time without
throttling; `0 ≤ diff < interval` throttles and keeps `recent`; any other
difference (including a regression) resets `recent` without throttling. -/
theorem c5_throttle_limit_cases (i recent : Int) (d : Data)
    (ht : d.Time ≠ 0) (_hd : d.Throttled = false) :
    ((NewThrottle i).interval = if i < 0 then 0 else i)
    ∧ ((NewThrottle i).recent = 0)
    ∧ (recent = 0 →
        Throttle.Limit { recent := recent, interval := (NewThrottle i).interval } d
          = ({ recent := d.Time, interval := (NewThrottle i).interval }, d))
    ∧ (recent ≠ 0 → 0 ≤ d.Time - recent → d.Time - recent < (NewThrottle i).interval →
        Throttle.Limit { recent := recent, interval := (NewThrottle i).interval } d
          = ({ recent := recent, interval := (NewThrottle i).interval },
             { d with Throttled := true }))
    ∧ (recent ≠ 0 → ¬(0 ≤ d.Time - recent ∧ d.Time - recent < (NewThrottle i).interval) →
        Throttle.Limit { recent := recent, interval := (NewThrottle i).interval } d
          = ({ recent := d.Time, interval := (NewThrottle i).interval }, d)) := by
  refine ⟨rfl, rfl, ?_, ?_, ?_⟩
  · intro h0
    simp [Throttle.Limit, ht, h0]
  · intro hr hle hlt
    simp [Throttle.Limit, ht, hr, hle, hlt]
  · intro hr hn
    simp only [Throttle.Limit, if_neg ht]
    rw [if_neg hr, if_neg hn]

/-- Witness for C5: interval 10, recent 5, record at time 7 is throttled. -/
theorem c5_throttle_limit_witness :
    Throttle.Limit { recent := 5, interval := (NewThrottle 10).interval } { Time := 7 }
      = ({ recent := 5, interval := (NewThrottle 10).interval },
         { Time := 7, Throttled := true }) :=
  (c5_throttle_limit_cases 10 5 { Time := 7 } (by decide) rfl).2.2.2.1
    (by decide) (by decide) (by decide)

/-- C10: `Limit` on a record whose time is the zero value changes neither the
record nor the throttle, whatever the interval and recent state. -/
theorem c10_throttle_limit_zero_time_noop (th : Throttle) (d : Data) (h : d.Time = 0) :
    th.Limit d = (th, d) := by
  simp [Throttle.Limit, h]

/-- Witness for C10: a zero-time record against a primed throttle. -/
theorem c10_throttle_limit_zero_time_witness :
    Throttle.Limit { recent := 99, interval := 3 } { Values := ["x".data] }
      = ({ recent := 99, interval := 3 }, { Values := ["x".data] }) :=
  c10_throttle_limit_zero_time_noop { recent := 99, interval := 3 }
    { Values := ["x".data] } rfl

/-! ### Association-list lemmas -/

theorem find?_filter_of_imp {α : Type} (m : List α) (p q : α → Bool)
    (h : ∀ x, p x = true → q x = true) :
    (m.filter q).find? p = m.find? p := by
  induction m with
  | nil => rfl
  | cons a m ih =>
      by_cases hq : q a = true
      · by_cases hp : p a = true
        · simp [List.filter_cons, hq, List.find?_cons, hp]
        · simp only [List.filter_cons, if_pos hq, List.find?_cons]
          simp only [Bool.not_eq_true] at hp
          simp [hp, ih]
      · have hp : p a = false := by
          rcases hpa : p a with _ | _
          · rfl
          · exact absurd (h a hpa) hq
        simp only [List.filter_cons, if_neg hq, List.find?_cons]
        simp [hp, ih]

theorem lookupVal_outSet (m : List (Str × Str)) (k v k' : Str) :
    lookupVal (outSet m k v) k' = if k' = k then some v else lookupVal m k' := by
  unfold lookupVal outSet
  by_cases h : k' = k
  · subst h
    rw [List.find?_cons_of_pos _ (by simp)]
    simp
  · rw [if_neg h]
    have hkk : ¬(k = k') := fun he => h he.symm
    rw [List.find?_cons_of_neg _ (by simpa using hkk)]
    congr 1
    exact find?_filter_of_imp m _ _ (by
      intro x hx
      simp only [decide_eq_true_eq] at hx
      simp only [decide_eq_true_eq, hx]
      exact h)

theorem outSet_outSet (m : List (Str × Str)) (k v w : Str) :
    outSet (outSet m k v) k w = outSet m k w := by
  unfold outSet
  simp [List.filter_cons, List.filter_filter]

theorem outSet_keys_nodup (m : List (Str × Str)) (k v : Str)
    (h : (m.map Prod.fst).Nodup) :
    ((outSet m k v).map Prod.fst).Nodup := by
  unfold outSet
  simp only [List.map_cons, List.nodup_cons]
  constructor
  · intro hk
    rcases List.mem_map.mp hk with ⟨p, hp, he⟩
    have := List.of_mem_filter hp
    simp only [decide_eq_true_eq] at this
    exact this he
  · exact h.sublist ((List.filter_sublist _).map Prod.fst)

theorem lookupVal_isSome_of_mem_keys (m : List (Str × Str)) (k : Str)
    (h : k ∈ m.map Prod.fst) : (lookupVal m k).isSome := by
  induction m with
  | nil => simp at h
  | cons a m ih =>
      by_cases he : a.1 = k
      · simp [lookupVal, List.find?_cons, he]
      · simp only [List.map_cons, List.mem_cons] at h
        rcases h with h | h
        · exact absurd h.symm he
        · simpa [lookupVal, List.find?_cons, he] using ih h

theorem fsLookup_eq_lookupVal : fsLookup = lookupVal := rfl

theorem fsSet_eq_outSet : fsSet = outSet := rfl

theorem fsLookup_fsSet (fs : FileMap) (p c q : Str) :
    fsLookup (fsSet fs p c) q = if q = p then some c else fsLookup fs q := by
  rw [fsLookup_eq_lookupVal, fsSet_eq_outSet, lookupVal_outSet,
    ← fsLookup_eq_lookupVal]

theorem fsLookup_fsCreate (fs : FileMap) (p q : Str) :
    fsLookup (fsCreate fs p) q
      = if q = p then some ((fsLookup fs p).getD []) else fsLookup fs q := by
  unfold fsCreate
  rcases h : fsLookup fs p with _ | c
  · by_cases hq : q = p
    · subst hq
      simp [fsLookup, List.find?_cons, h]
    · have hne : ¬(p = q) := fun he => hq he.symm
      simp only [fsLookup, List.find?_cons]
      rw [if_neg hq]
      simp [hne]
  · by_cases hq : q = p
    · subst hq
      simp [h]
    · simp [hq]

theorem fsLookup_fsAppend (fs : FileMap) (p s q : Str) :
    fsLookup (fsAppend fs p s) q
      = if q = p then some ((fsLookup fs p).getD [] ++ s) else fsLookup fs q := by
  unfold fsAppend
  rw [fsLookup_fsSet]

theorem feedPath_inj (st : DiskStorage) (f g : Str)
    (h : st.FeedPath f = st.FeedPath g) : f = g := by
  unfold DiskStorage.FeedPath at h
  have h1 : st.pfx ++ f = st.pfx ++ g := List.append_cancel_right h
  exact List.append_cancel_left h1

/-! ### Storage claims (C8) -/

/-- One `writeHeader` on a feed with no open buffer: open the file, and
buffer the normalized header exactly when the file is empty. -/
theorem writeHeader_fresh (st : DiskStorage) (fs : FileMap) (f h : Str)
    (hf : lookupVal st.out f = none) :
    st.writeHeader fs f h
      = ({ st with
            out := outSet st.out f
                (if (fsLookup fs (st.FeedPath f)).getD [] = []
                  then normalizeHeader h else []) },
         fsCreate fs (st.FeedPath f)) := by
  unfold DiskStorage.writeHeader DiskStorage.setOutput
  rw [hf]
  have hpath : DiskStorage.FeedPath { st with out := outSet st.out f [] } f
      = st.FeedPath f := rfl
  have hdata : DiskStorage.hasData { st with out := outSet st.out f [] }
      (fsCreate fs (st.FeedPath f)) f
      = (((fsLookup fs (st.FeedPath f)).getD []).length > 0 : Bool) := by
    unfold DiskStorage.hasData
    rw [hpath, fsLookup_fsCreate, if_pos rfl]
    simp
  by_cases hc : (fsLookup fs (st.FeedPath f)).getD [] = []
  · rw [if_neg (by simp [hdata, hc] : ¬(DiskStorage.hasData _ _ f = true))]
    unfold DiskStorage.WriteString
    rw [lookupVal_outSet, if_pos rfl]
    simp only [List.nil_append]
    rw [outSet_outSet, if_pos hc]
  · rw [if_pos (by
      rw [hdata]
      simpa [List.length_pos] using hc)]
    rw [if_neg hc]

/-- Draining the buffers at `Flush`: each buffered feed's bytes land at the
end of its own file; every other path is untouched. -/
theorem flushFold_char (pf : Str → Str) (hinj : ∀ a b, pf a = pf b → a = b) :
    ∀ (out : List (Str × Str)) (fs : FileMap), ((out.map Prod.fst).Nodup) →
      (∀ f b, (f, b) ∈ out →
        fsLookup (out.foldl (fun acc p => fsAppend acc (pf p.1) p.2) fs) (pf f)
          = some ((fsLookup fs (pf f)).getD [] ++ b))
      ∧ (∀ q, (∀ f ∈ out.map Prod.fst, q ≠ pf f) →
          fsLookup (out.foldl (fun acc p => fsAppend acc (pf p.1) p.2) fs) q
            = fsLookup fs q) := by
  intro out
  induction out with
  | nil => exact fun fs _ => ⟨fun f b hm => absurd hm (List.not_mem_nil _), fun q _ => rfl⟩
  | cons gb rest ih =>
      obtain ⟨g, bg⟩ := gb
      intro fs hnd
      simp only [List.map_cons, List.nodup_cons] at hnd
      obtain ⟨hg, hndr⟩ := hnd
      have ihr := ih (fsAppend fs (pf g) bg) hndr
      constructor
      · intro f b hm
        simp only [List.foldl_cons]
        rcases List.mem_cons.mp hm with he | hm
        · rw [Prod.mk.injEq] at he
          obtain ⟨rfl, rfl⟩ := he
          rw [ihr.2 (pf f) (by
            intro g' hg' he
            refine hg ?_
            rw [hinj _ _ he]
            exact hg')]
          rw [fsLookup_fsAppend, if_pos rfl]
        · have hne : ¬(f = g) := by
            intro he
            rw [he] at hm
            exact hg (List.mem_map_of_mem Prod.fst hm)
          rw [ihr.1 f b hm]
          rw [fsLookup_fsAppend,
            if_neg (fun he => hne (hinj _ _ he))]
      · intro q hq
        simp only [List.foldl_cons]
        rw [ihr.2 q (fun g' hg' => hq g' (List.mem_cons_of_mem _ hg'))]
        rw [fsLookup_fsAppend, if_neg (hq g (List.mem_cons_self _ _))]

/-- The construction fold of `NewDiskStorage`, characterized: it creates the
declared files, buffers `normalizeHeader h` for feeds whose file is empty
(an empty buffer otherwise), and changes no file contents. -/
theorem newFold_char (pfx ext : Str) :
    ∀ (feeds : List (Str × Str)) (st : DiskStorage) (fs : FileMap),
      st.pfx = pfx → st.ext = ext →
      ((feeds.map Prod.fst).Nodup) →
      ((st.out.map Prod.fst).Nodup) →
      (∀ f ∈ feeds.map Prod.fst, lookupVal st.out f = none) →
      ((feeds.foldl (fun acc fh => DiskStorage.writeHeader acc.1 acc.2 fh.1 fh.2)
          (st, fs)).1.pfx = pfx
      ∧ (feeds.foldl (fun acc fh => DiskStorage.writeHeader acc.1 acc.2 fh.1 fh.2)
          (st, fs)).1.ext = ext
      ∧ (((feeds.foldl (fun acc fh => DiskStorage.writeHeader acc.1 acc.2 fh.1 fh.2)
          (st, fs)).1.out.map Prod.fst).Nodup)
      ∧ (∀ f h, (f, h) ∈ feeds →
          lookupVal (feeds.foldl (fun acc fh => DiskStorage.writeHeader acc.1 acc.2 fh.1 fh.2)
              (st, fs)).1.out f
            = some (if (fsLookup fs (pfx ++ f ++ ext)).getD [] = []
                    then normalizeHeader h else []))
      ∧ (∀ f, f ∉ feeds.map Prod.fst →
          lookupVal (feeds.foldl (fun acc fh => DiskStorage.writeHeader acc.1 acc.2 fh.1 fh.2)
              (st, fs)).1.out f = lookupVal st.out f)
      ∧ (∀ q, fsLookup (feeds.foldl (fun acc fh => DiskStorage.writeHeader acc.1 acc.2 fh.1 fh.2)
              (st, fs)).2 q
            = if q ∈ feeds.map (fun fh => pfx ++ fh.1 ++ ext)
              then some ((fsLookup fs q).getD []) else fsLookup fs q)) := by
  intro feeds
  induction feeds with
  | nil =>
      intro st fs hp he _ hndo _
      exact ⟨hp, he, hndo, fun f h hm => absurd hm (List.not_mem_nil _),
        fun f _ => rfl, fun q => by simp⟩
  | cons fh rest ih =>
      intro st fs hp he hnd hndo hfresh
      simp only [List.map_cons, List.nodup_cons] at hnd
      obtain ⟨hf1, hndr⟩ := hnd
      have hfple : st.FeedPath fh.1 = pfx ++ fh.1 ++ ext := by
        unfold DiskStorage.FeedPath
        rw [hp, he]
      have hstep := writeHeader_fresh st fs fh.1 fh.2
        (hfresh fh.1 (List.mem_cons_self _ _))
      set buf := (if (fsLookup fs (st.FeedPath fh.1)).getD [] = []
                  then normalizeHeader fh.2 else []) with hbuf
      set st1 : DiskStorage := { st with out := outSet st.out fh.1 buf } with hst1
      set fs1 : FileMap := fsCreate fs (st.FeedPath fh.1) with hfs1
      have hlook1 : ∀ g, g ≠ fh.1 → lookupVal st1.out g = lookupVal st.out g := by
        intro g hgne
        rw [hst1]
        exact (lookupVal_outSet _ _ _ _).trans (if_neg hgne)
      have ihr := ih st1 fs1 hp he hndr
        (by rw [hst1]; exact outSet_keys_nodup _ _ _ hndo)
        (by
          intro g hg
          rw [hlook1 g (fun he' => hf1 (he' ▸ hg))]
          exact hfresh g (List.mem_cons_of_mem _ hg))
      have hfseq : ∀ q, fsLookup fs1 q
          = if q = pfx ++ fh.1 ++ ext then some ((fsLookup fs q).getD [])
            else fsLookup fs q := by
        intro q
        rw [hfs1, fsLookup_fsCreate, hfple]
        by_cases hq : q = pfx ++ fh.1 ++ ext
        · rw [if_pos hq, if_pos hq, hq]
        · rw [if_neg hq, if_neg hq]
      simp only [List.foldl_cons, hstep, ← hst1, ← hfs1]
      obtain ⟨ih1, ih2, ih3, ih4, ih5, ih6⟩ := ihr
      refine ⟨ih1, ih2, ih3, ?_, ?_, ?_⟩
      · intro f h hm
        rcases List.mem_cons.mp hm with he' | hm
        · have hf : f = fh.1 := congrArg Prod.fst he'
          have hh : h = fh.2 := congrArg Prod.snd he'
          subst hf
          subst hh
          rw [ih5 fh.1 hf1, hst1]
          rw [lookupVal_outSet, if_pos rfl, hbuf, hfple]
        · have hfn : ¬(f = fh.1) := by
            intro he'
            exact hf1 (he' ▸ List.mem_map_of_mem Prod.fst hm)
          rw [ih4 f h hm]
          rw [hfseq (pfx ++ f ++ ext),
            if_neg (fun he' => hfn (List.append_cancel_left
              (List.append_cancel_right he')))]
      · intro f hfm
        simp only [List.map_cons, List.mem_cons] at hfm
        push_neg at hfm
        rw [ih5 f hfm.2]
        exact hlook1 f hfm.1
      · intro q
        rw [ih6 q]
        simp only [List.map_cons, List.mem_cons]
        by_cases hq1 : q ∈ rest.map (fun fh => pfx ++ fh.1 ++ ext)
        · rw [if_pos hq1, if_pos (Or.inr hq1), hfseq q]
          by_cases hq2 : q = pfx ++ fh.1 ++ ext
          · rw [if_pos hq2]
            simp
          · rw [if_neg hq2]
        · by_cases hq2 : q = pfx ++ fh.1 ++ ext
          · rw [if_neg hq1, if_pos (Or.inl hq2), hfseq q, if_pos hq2]
          · rw [if_neg hq1, if_neg (by
              push_neg
              exact ⟨hq2, hq1⟩), hfseq q, if_neg hq2]

theorem mem_of_lookupVal_eq_some (m : List (Str × Str)) (k v : Str)
    (h : lookupVal m k = some v) : (k, v) ∈ m := by
  unfold lookupVal at h
  rcases ho : m.find? (fun p => p.1 = k) with _ | p
  · rw [ho] at h
    simp at h
  · rw [ho] at h
    simp only [Option.map_some'] at h
    have hm := List.mem_of_find?_eq_some ho
    have hp := List.find?_some ho
    simp only [decide_eq_true_eq] at hp
    have hpe : p = (k, v) := by
      obtain ⟨p1, p2⟩ := p
      simp only at hp h
      rw [hp, Option.some.inj h]
    rwa [hpe] at hm

/-- C8: construction writes a declared feed's header exactly when the feed's
file is empty (normalized with a trailing newline when it lacks one, and an
empty header writing nothing), leaves non-empty feed files unmodified,
touches no other path, and a re-open against the resulting directory changes
nothing: the header lands at most once. -/
theorem c8_storage_header_once (pfx ext : Str) (feeds : List (Str × Str))
    (fs : FileMap) (hnd : ((feeds.map Prod.fst).Nodup)) :
    (∀ f h, (f, h) ∈ feeds →
      fsLookup (openClose pfx ext feeds fs) (pfx ++ f ++ ext)
        = some (if (fsLookup fs (pfx ++ f ++ ext)).getD [] = []
                then normalizeHeader h
                else (fsLookup fs (pfx ++ f ++ ext)).getD []))
    ∧ (normalizeHeader [] = []
       ∧ ∀ h : Str, h ≠ [] → h.getLast? ≠ some '\n' → normalizeHeader h = h ++ ['\n'])
    ∧ (∀ q, (∀ f ∈ feeds.map Prod.fst, q ≠ pfx ++ f ++ ext) →
        fsLookup (openClose pfx ext feeds fs) q = fsLookup fs q)
    ∧ (∀ q, fsLookup (openClose pfx ext feeds (openClose pfx ext feeds fs)) q
          = fsLookup (openClose pfx ext feeds fs) q) := by
  have hmain : ∀ fs' : FileMap,
      (∀ f h, (f, h) ∈ feeds →
        fsLookup (openClose pfx ext feeds fs') (pfx ++ f ++ ext)
          = some (if (fsLookup fs' (pfx ++ f ++ ext)).getD [] = []
                  then normalizeHeader h
                  else (fsLookup fs' (pfx ++ f ++ ext)).getD []))
      ∧ (∀ q, (∀ f ∈ feeds.map Prod.fst, q ≠ pfx ++ f ++ ext) →
          fsLookup (openClose pfx ext feeds fs') q = fsLookup fs' q) := by
    intro fs'
    obtain ⟨h1, h2, h3, h4, h5, h6⟩ := newFold_char pfx ext feeds
      { pfx := pfx, ext := ext, out := [] } fs' rfl rfl hnd (by simp)
      (fun f _ => rfl)
    set r := feeds.foldl (fun acc fh => DiskStorage.writeHeader acc.1 acc.2 fh.1 fh.2)
      ({ pfx := pfx, ext := ext, out := [] }, fs') with hr
    have hocl : openClose pfx ext feeds fs'
        = r.1.out.foldl (fun acc p => fsAppend acc (r.1.FeedPath p.1) p.2) r.2 := rfl
    have hpf : ∀ g, r.1.FeedPath g = pfx ++ g ++ ext := by
      intro g
      unfold DiskStorage.FeedPath
      rw [h1, h2]
    have hflush := flushFold_char r.1.FeedPath (feedPath_inj r.1) r.1.out r.2 h3
    constructor
    · intro f h hm
      have hlf := h4 f h hm
      have hmem := mem_of_lookupVal_eq_some _ _ _ hlf
      have hff := hflush.1 f _ hmem
      rw [hpf f] at hff
      rw [hocl, hff]
      have hq2 : fsLookup r.2 (pfx ++ f ++ ext)
          = some ((fsLookup fs' (pfx ++ f ++ ext)).getD []) := by
        rw [h6]
        rw [if_pos (List.mem_map_of_mem (fun fh => pfx ++ fh.1 ++ ext) hm)]
      rw [hq2]
      simp only [Option.getD_some]
      by_cases hc : (fsLookup fs' (pfx ++ f ++ ext)).getD [] = []
      · rw [if_pos hc, if_pos hc, hc]
        simp
      · rw [if_neg hc, if_neg hc]
        simp
    · intro q hq
      have hkeys : ∀ g ∈ r.1.out.map Prod.fst, q ≠ r.1.FeedPath g := by
        intro g hgm
        rw [hpf g]
        by_cases hgf : g ∈ feeds.map Prod.fst
        · exact hq g hgf
        · have hnone := h5 g hgf
          have hsome := lookupVal_isSome_of_mem_keys _ _ hgm
          rw [hnone] at hsome
          simp [lookupVal] at hsome
      rw [hocl, hflush.2 q hkeys, h6, if_neg (by
        intro hmem'
        rcases List.mem_map.mp hmem' with ⟨fh', hfh', he'⟩
        exact hq fh'.1 (List.mem_map_of_mem Prod.fst hfh') he'.symm)]
  refine ⟨(hmain fs).1, ⟨rfl, ?_⟩, (hmain fs).2, ?_⟩
  · intro h hne hlast
    unfold normalizeHeader
    rw [if_pos ⟨hne, hlast⟩]
  · intro q
    by_cases hqp : ∃ fh, fh ∈ feeds ∧ q = pfx ++ fh.1 ++ ext
    · obtain ⟨⟨f, h⟩, hmem, rfl⟩ := hqp
      have ha1 := (hmain fs).1 f h hmem
      have ha2 := (hmain (openClose pfx ext feeds fs)).1 f h hmem
      simp only at ha1 ha2 ⊢
      rw [ha1] at ha2
      simp only [Option.getD_some] at ha2
      rw [ha2, ha1]
      congr 1
      by_cases hc : (fsLookup fs (pfx ++ f ++ ext)).getD [] = []
      · rw [if_pos hc]
        by_cases hn : normalizeHeader h = []
        · rw [if_pos hn, hn]
        · rw [if_neg hn]
      · rw [if_neg hc, if_neg hc]
    · push_neg at hqp
      have hq' : ∀ f ∈ feeds.map Prod.fst, q ≠ pfx ++ f ++ ext := by
        intro f hf he
        rcases List.mem_map.mp hf with ⟨fh, hfh, rfl⟩
        exact hqp fh hfh he
      rw [(hmain _).2 q hq', (hmain fs).2 q hq']

/-- Witness for C8: a fresh directory receives the header (with appended
newline) for the declared "geo" feed. -/
theorem c8_storage_header_once_witness :
    fsLookup (openClose "x-".data ".tab".data [("geo".data, "HDR".data)] [])
        ("x-".data ++ "geo".data ++ ".tab".data)
      = some (if (fsLookup [] ("x-".data ++ "geo".data ++ ".tab".data)).getD [] = []
              then normalizeHeader "HDR".data
              else (fsLookup [] ("x-".data ++ "geo".data ++ ".tab".data)).getD []) :=
  (c8_storage_header_once "x-".data ".tab".data [("geo".data, "HDR".data)] []
    (by decide)).1 "geo".data "HDR".data (by decide)

theorem take_succ_set {α : Type} (l : List α) (j : Nat) (v : α) (h : j < l.length) :
    (l.set j v).take (j + 1) = l.take j ++ [v] := by
  induction l generalizing j with
  | nil => simp at h
  | cons a l ih =>
      cases j with
      | zero => simp
      | succ j =>
          simp only [List.set_cons_succ, List.take_succ_cons, List.cons_append,
            List.cons.injEq, true_and]
          exact ih j (by simpa using h)

/-- The setter fold of `buildValues`, walking positions `j, j+1, ...` over an
accumulator of exactly the remaining length, produces the mapped list. -/
theorem buildValues_fold (f : Str → Str) :
    ∀ (ks : List Str) (j : Nat) (acc : List Str),
      (∀ k ∈ ks, k ≠ "time".data) → acc.length = j + ks.length →
      (ks.enumFrom (j + 1)).foldl
        (fun acc ik =>
          if ik.2 = "time".data then acc else acc.set (ik.1 - 1) (f ik.2)) acc
        = acc.take j ++ ks.map f := by
  intro ks
  induction ks with
  | nil =>
      intro j acc _ hlen
      simp only [List.enumFrom, List.foldl_nil, List.map_nil, List.append_nil]
      have hj : acc.length = j := by simpa using hlen
      rw [← hj, List.take_length]
  | cons k ks ih =>
      intro j acc hnt hlen
      have hkt : ¬(k = "time".data) := hnt k (List.mem_cons_self _ _)
      have hj : j < acc.length := by
        simp only [List.length_cons] at hlen
        omega
      simp only [List.enumFrom, List.foldl_cons, if_neg hkt, Nat.add_sub_cancel]
      rw [ih (j + 1) (acc.set j (f k)) (fun x hx => hnt x (List.mem_cons_of_mem _ hx))
        (by simp only [List.length_set, List.length_cons] at hlen ⊢; omega)]
      rw [take_succ_set acc j (f k) hj]
      simp

/-- With the Tsdata invariant (`"time"` is the first header and appears only
there), the value-building loop lists the looked-up values in header order. -/
theorem buildValues_time_head (rest : List Str) (m : List (Str × Str))
    (hnt : "time".data ∉ rest) :
    buildValues ("time".data :: rest) m
      = rest.map (fun k => (lookupVal m k).getD []) := by
  unfold buildValues
  simp only [List.enum, List.enumFrom, List.foldl_cons, if_pos rfl,
    List.length_cons, Nat.add_sub_cancel]
  have := buildValues_fold (fun k => (lookupVal m k).getD []) rest 0
    (List.replicate rest.length []) (fun k hk => fun he => hnt (he ▸ hk))
    (by simp)
  simpa using this

/-- The completeness test of `GetData`, unfolded for a "time"-first header
list. -/
theorem allPresent_time_head (t : Int) (m : List (Str × Str)) (rest : List Str)
    (hnt : "time".data ∉ rest) :
    ((("time".data :: rest).all (fun h =>
        if h = "time".data then !(t == 0) else (lookupVal m h).isSome)) = true)
    ↔ (t ≠ 0 ∧ ∀ k ∈ rest, (lookupVal m k).isSome = true) := by
  simp only [List.all_cons, Bool.and_eq_true, List.all_eq_true, if_pos rfl]
  constructor
  · rintro ⟨h1, h2⟩
    refine ⟨by simpa using h1, fun k hk => ?_⟩
    have := h2 k hk
    rwa [if_neg (fun he : k = "time".data => hnt (he ▸ hk))] at this
  · rintro ⟨h1, h2⟩
    refine ⟨by simpa using h1, fun k hk => ?_⟩
    rw [if_neg (fun he : k = "time".data => hnt (he ▸ hk))]
    exact h2 k hk

/-- `Limit` never changes a record's time, values or errors. -/
theorem limit_preserves_fields (th : Throttle) (d : Data) :
    (th.Limit d).2.Time = d.Time ∧ (th.Limit d).2.Values = d.Values
    ∧ (th.Limit d).2.Errors = d.Errors := by
  by_cases h1 : d.Time = 0
  · simp [Throttle.Limit, h1]
  · by_cases h2 : th.recent = 0
    · simp [Throttle.Limit, h1, h2]
    · by_cases h3 : 0 ≤ d.Time - th.recent ∧ d.Time - th.recent < th.interval
      · simp [Throttle.Limit, h1, h2, h3]
      · rw [sub_nonneg] at h3
        simp [Throttle.Limit, h1, h2, h3]

/-- C6: under the Tsdata invariant ("time" is the first header and occurs
only there), `GetData` returns a populated record (non-zero time) exactly
when every schema header is populated; on a populated return the values are
the stored values in schema-header order, the throttle is applied to the
record, and the internal time, values and errors are reset; on an incomplete
return the record is empty and the manager is unchanged. -/
theorem c6_dataManager_getData (dm : DataManager) (rest : List Str)
    (hh : dm.metadataHeaders = "time".data :: rest)
    (hnt : "time".data ∉ rest) :
    ((dm.GetData).1.Time ≠ 0 ↔
      (dm.t ≠ 0 ∧ ∀ k ∈ rest, (lookupVal dm.values k).isSome = true))
    ∧ ((dm.t ≠ 0 ∧ ∀ k ∈ rest, (lookupVal dm.values k).isSome = true) →
        dm.GetData =
          (let d0 : Data :=
            { Time := dm.t,
              Values := rest.map (fun k => (lookupVal dm.values k).getD []),
              Errors := dm.errors }
           ((dm.throttle.Limit d0).2,
            { dm with throttle := (dm.throttle.Limit d0).1,
                      t := 0, values := [], errors := [] })))
    ∧ (¬(dm.t ≠ 0 ∧ ∀ k ∈ rest, (lookupVal dm.values k).isSome = true) →
        dm.GetData = ({}, dm)) := by
  have hall := allPresent_time_head dm.t dm.values rest hnt
  by_cases hc : dm.t ≠ 0 ∧ ∀ k ∈ rest, (lookupVal dm.values k).isSome = true
  · have hbool : (dm.metadataHeaders.all (fun h =>
        if h = "time".data then !(dm.t == 0) else (lookupVal dm.values h).isSome))
        = true := by
      rw [hh]
      exact hall.mpr hc
    have hget : dm.GetData =
        (let d0 : Data :=
          { Time := dm.t,
            Values := rest.map (fun k => (lookupVal dm.values k).getD []),
            Errors := dm.errors }
         ((dm.throttle.Limit d0).2,
          { dm with throttle := (dm.throttle.Limit d0).1,
                    t := 0, values := [], errors := [] })) := by
      unfold DataManager.GetData
      rw [if_pos hbool]
      rw [hh, buildValues_time_head rest dm.values hnt]
    refine ⟨?_, fun _ => hget, fun hn => absurd hc hn⟩
    rw [hget]
    have hpres := limit_preserves_fields dm.throttle
      { Time := dm.t,
        Values := rest.map (fun k => (lookupVal dm.values k).getD []),
        Errors := dm.errors }
    simp only [hpres.1]
    exact ⟨fun ht => ⟨ht, hc.2⟩, fun h => h.1⟩
  · have hbool : (dm.metadataHeaders.all (fun h =>
        if h = "time".data then !(dm.t == 0) else (lookupVal dm.values h).isSome))
        = false := by
      rw [hh]
      rw [← Bool.not_eq_true]
      exact fun hb => hc (hall.mp hb)
    have hget : dm.GetData = ({}, dm) := by
      unfold DataManager.GetData
      rw [hbool]
      simp
    refine ⟨?_, fun h => absurd h hc, fun _ => hget⟩
    rw [hget]
    constructor
    · intro h
      exact absurd rfl h
    · intro h
      exact absurd h hc

/-- Witness for C6: a two-column schema with the lone value present and a
non-zero time emits, applies the throttle and resets the manager state. -/
theorem c6_dataManager_getData_witness :
    (({ throttle := NewThrottle 0, t := 5,
        values := [("lat".data, "21.3".data)],
        errors := ["oops".data],
        metadataHeaders := ["time".data, "lat".data] } : DataManager).GetData).1.Time ≠ 0
    ↔ ((5 : Int) ≠ 0 ∧ ∀ k ∈ ["lat".data],
        (lookupVal [("lat".data, "21.3".data)] k).isSome = true) :=
  (c6_dataManager_getData
    { throttle := NewThrottle 0, t := 5,
      values := [("lat".data, "21.3".data)],
      errors := ["oops".data],
      metadataHeaders := ["time".data, "lat".data] }
    ["lat".data] rfl (by decide)).1

/-- C4: the registry maps the five names "Gradients4", "Gradients5",
"Kilo Moana", "TN427" and "TARA" to their constructors, but resolves no
"TN448" entry: the sixth registration required by the claim (and asserted by
tn448_test.go) is missing from the code. -/
theorem c4_registry_has_five_entries_no_tn448 :
    registryLookup "Gradients4" = some ParserCtor.gradients4
    ∧ registryLookup "Gradients5" = some ParserCtor.gradients5
    ∧ registryLookup "Kilo Moana" = some ParserCtor.kiloMoana
    ∧ registryLookup "TN427" = some ParserCtor.tn427
    ∧ registryLookup "TARA" = some ParserCtor.tara
    ∧ registryLookup "TN448" = none := by
  decide

/-- Witness for C7 at a concrete input: one ordinary payload followed by an
empty payload. -/
theorem c7_rawudp_wrap_unwrap_roundtrip_witness :
    scanAll (([("2024-06-01T12:00:00Z".data, "hello world\n".data),
               ("2024-06-01T12:00:00Z".data, ("" : String).data)].map
        (fun e => WrapUDPPayload e.1 e.2)).flatten)
      = Except.ok ["hello world\n".data, ("" : String).data] :=
  c7_rawudp_wrap_unwrap_roundtrip
    [("2024-06-01T12:00:00Z".data, "hello world\n".data),
     ("2024-06-01T12:00:00Z".data, ("" : String).data)]
    (by decide)


/-! ### Geo decimal-degree ranges (C2) and the Gradients5 TSG and PAR paths (C1, C3) -/

set_option maxRecDepth 100000


theorem lowerChar_of_digit (c : Char) (h : isDigitChar c = true) : lowerChar c = c := by
  unfold isDigitChar at h
  simp only [Bool.and_eq_true, decide_eq_true_eq] at h
  unfold lowerChar
  rw [if_neg (by omega)]

theorem spanDigits_all (p : Str) (hp : ∀ c ∈ p, isDigitChar c = true) :
    spanDigits p = (p, []) := by
  induction p with
  | nil => rfl
  | cons c r ih =>
      have h1 := hp c (List.mem_cons_self _ _)
      have h2 := ih (fun d hd => hp d (List.mem_cons_of_mem _ hd))
      simp [spanDigits, h1, h2]

theorem spanDigits_stop (p : Str) (hp : ∀ c ∈ p, isDigitChar c = true)
    (c : Char) (hc : isDigitChar c = false) (r : Str) :
    spanDigits (p ++ c :: r) = (p, c :: r) := by
  induction p with
  | nil => simp [spanDigits, hc]
  | cons a t ih =>
      have h1 := hp a (List.mem_cons_self _ _)
      have h2 := ih (fun d hd => hp d (List.mem_cons_of_mem _ hd))
      simp [spanDigits, h1, h2]

theorem digitsVal_replicate_zero (m : Nat) (t : Str) :
    digitsVal (List.replicate m '0' ++ t) = digitsVal t := by
  induction m with
  | zero => rfl
  | succ k ih =>
      unfold digitsVal at ih ⊢
      simp only [List.replicate_succ, List.cons_append, List.foldl_cons]
      have h0 : 0 * 10 + ('0'.toNat - 48) = 0 := by decide
      rw [h0]
      exact ih

theorem pad4_digits (r : Nat) : ∀ c ∈ pad4 r, isDigitChar c = true := by
  intro c hc
  unfold pad4 at hc
  rcases List.mem_append.mp hc with h | h
  · rw [List.eq_of_mem_replicate h]; decide
  · exact mem_decChars_digit r c h

theorem digitsVal_pad4 (r : Nat) : digitsVal (pad4 r) = r := by
  unfold pad4
  rw [digitsVal_replicate_zero, digitsVal_decChars]

theorem decChars_length_le (n k : Nat) (hk : 0 < k) (h : n < 10 ^ k) :
    (decChars n).length ≤ k := by
  rw [decChars_eq]
  split
  · simpa using hk
  · next hn =>
      simp only [List.length_map, List.length_reverse]
      rw [Nat.digits_len 10 n (by norm_num) hn]
      have := Nat.log_lt_of_lt_pow hn h
      omega

theorem pad4_length (r : Nat) (h : r < 10000) : (pad4 r).length = 4 := by
  unfold pad4
  have h4 := decChars_length_le r 4 (by norm_num) (by norm_num; omega)
  simp only [List.length_append, List.length_replicate]
  omega

theorem goParseDecimal_digits_point (neg : Bool) (a b : Str) (ha : a ≠ [])
    (hda : ∀ c ∈ a, isDigitChar c = true) (hdb : ∀ c ∈ b, isDigitChar c = true) :
    goParseDecimal neg (a ++ '.' :: b)
      = some (GoFloat.finite (if neg then
          (Frac.add ⟨(digitsVal a : Int), 1⟩ ⟨(digitsVal b : Int), 10 ^ b.length⟩).neg
        else Frac.add ⟨(digitsVal a : Int), 1⟩ ⟨(digitsVal b : Int), 10 ^ b.length⟩)) := by
  unfold goParseDecimal
  rw [spanDigits_stop a hda '.' (by decide) b]
  simp only [spanDigits_all b hdb, eq_self_iff_true, if_true]
  rw [if_neg (fun h => ha h.1)]
theorem goParseFloat_digits_point_neg (a b : Str) (ha : a ≠ [])
    (hda : ∀ c ∈ a, isDigitChar c = true) (hdb : ∀ c ∈ b, isDigitChar c = true) :
    goParseFloat ('-' :: (a ++ '.' :: b))
      = some (GoFloat.finite
          (Frac.add ⟨(digitsVal a : Int), 1⟩ ⟨(digitsVal b : Int), 10 ^ b.length⟩).neg) := by
  rcases a with _ | ⟨c, t⟩
  · exact absurd rfl ha
  have hcd := hda c (List.mem_cons_self _ _)
  have hc : 48 ≤ c.toNat ∧ c.toNat ≤ 57 := by
    unfold isDigitChar at hcd; simpa using hcd
  simp only [goParseFloat]
  rw [if_neg (by decide : ¬(('-' : Char) = '+'))]
  simp only [if_true]
  simp only [List.cons_append, List.map_cons, lowerChar_of_digit c hcd]
  rw [if_neg, if_neg]
  · rw [← List.cons_append]
    exact goParseDecimal_digits_point true (c :: t) b ha hda hdb
  · intro h
    have h2 : c = 'n' := by
      have := congrArg (fun l => l.headD ' ') h
      simpa [lowerChar_of_digit c hcd] using this
    subst h2
    simp at hc
  · rintro (h | h) <;> (
      have h2 : c = 'i' := by
        have := congrArg (fun l => l.headD ' ') h
        simpa [lowerChar_of_digit c hcd] using this
      subst h2
      simp at hc)

theorem goParseFloat_digits_point_pos (a b : Str) (ha : a ≠ [])
    (hda : ∀ c ∈ a, isDigitChar c = true) (hdb : ∀ c ∈ b, isDigitChar c = true) :
    goParseFloat (a ++ '.' :: b)
      = some (GoFloat.finite
          (Frac.add ⟨(digitsVal a : Int), 1⟩ ⟨(digitsVal b : Int), 10 ^ b.length⟩)) := by
  rcases a with _ | ⟨c, t⟩
  · exact absurd rfl ha
  have hcd := hda c (List.mem_cons_self _ _)
  have hc : 48 ≤ c.toNat ∧ c.toNat ≤ 57 := by
    unfold isDigitChar at hcd; simpa using hcd
  have hcp : c ≠ '+' := fun h => by subst h; simp at hc
  have hcm : c ≠ '-' := fun h => by subst h; simp at hc
  simp only [goParseFloat, List.cons_append]
  rw [if_neg hcp, if_neg hcm]
  simp only [List.map_cons, lowerChar_of_digit c hcd]
  rw [if_neg, if_neg]
  · rw [← List.cons_append]
    exact goParseDecimal_digits_point false (c :: t) b ha hda hdb
  · intro h
    have h2 : c = 'n' := by
      have := congrArg (fun l => l.headD ' ') h
      simpa [lowerChar_of_digit c hcd] using this
    subst h2
    simp at hc
  · rintro (h | h) <;> (
      have h2 : c = 'i' := by
        have := congrArg (fun l => l.headD ' ') h
        simpa [lowerChar_of_digit c hcd] using this
      subst h2
      simp at hc)

theorem goParseFloat_sprintf4 (f : Frac) :
    goParseFloat (sprintf4 (GoFloat.finite f))
      = some (GoFloat.finite ⟨sprintf4Round f, 10000⟩) := by
  unfold sprintf4
  simp only
  have hlen : (pad4 ((sprintf4Round f).natAbs % 10000)).length = 4 :=
    pad4_length _ (Nat.mod_lt _ (by norm_num))
  by_cases hneg : sprintf4Round f < 0
  · rw [if_pos hneg, List.singleton_append, List.cons_append]
    rw [goParseFloat_digits_point_neg (decChars ((sprintf4Round f).natAbs / 10000))
      (pad4 ((sprintf4Round f).natAbs % 10000)) (decChars_ne_nil _)
      (fun c hc => mem_decChars_digit _ c hc) (pad4_digits _)]
    unfold Frac.add Frac.neg
    simp only [digitsVal_decChars, digitsVal_pad4, hlen]
    rw [show ((10:Int)^4) = 10000 from by norm_num]
    rw [Option.some.injEq, GoFloat.finite.injEq, Frac.mk.injEq]
    exact ⟨by omega, by norm_num⟩
  · rw [if_neg hneg, List.nil_append]
    rw [goParseFloat_digits_point_pos (decChars ((sprintf4Round f).natAbs / 10000))
      (pad4 ((sprintf4Round f).natAbs % 10000)) (decChars_ne_nil _)
      (fun c hc => mem_decChars_digit _ c hc) (pad4_digits _)]
    unfold Frac.add
    simp only [digitsVal_decChars, digitsVal_pad4, hlen]
    rw [show ((10:Int)^4) = 10000 from by norm_num]
    rw [Option.some.injEq, GoFloat.finite.injEq, Frac.mk.injEq]
    exact ⟨by omega, by norm_num⟩

theorem sprintf4Round_bounds (f : Frac) (B : Int) (hden : 0 < f.den)
    (hlo : -(B * f.den) ≤ f.num) (hhi : f.num ≤ B * f.den) :
    -(B * 10000) ≤ sprintf4Round f ∧ sprintf4Round f ≤ B * 10000 := by
  unfold sprintf4Round
  rw [show Int.ediv (2 * f.num * 10000 + f.den) (2 * f.den)
      = (2 * f.num * 10000 + f.den) / (2 * f.den) from rfl]
  constructor
  · rw [Int.le_ediv_iff_mul_le (by linarith)]
    nlinarith
  · rw [← Int.lt_add_one_iff, Int.ediv_lt_iff_lt_mul (by linarith)]
    nlinarith

theorem Frac.val_le_of_num_le (f : Frac) (B : Int) (hden : 0 < f.den)
    (h : f.num ≤ B * f.den) : f.val ≤ (B : ℚ) := by
  unfold Frac.val
  rw [div_le_iff₀ (by exact_mod_cast hden)]
  exact_mod_cast h

theorem Frac.le_val_of_le_num (f : Frac) (B : Int) (hden : 0 < f.den)
    (h : -(B * f.den) ≤ f.num) : -(B : ℚ) ≤ f.val := by
  unfold Frac.val
  rw [le_div_iff₀ (by exact_mod_cast hden)]
  have : ((-(B * f.den) : Int) : ℚ) ≤ ((f.num : Int) : ℚ) := by exact_mod_cast h
  push_cast at this ⊢
  linarith

theorem sprintf4_reparse_in_range (v : Frac) (B : Int) (hden : 0 < v.den)
    (hlo : -(B * v.den) ≤ v.num) (hhi : v.num ≤ B * v.den) :
    ∃ g : Frac, goParseFloat (sprintf4 (GoFloat.finite v)) = some (GoFloat.finite g)
      ∧ -(B : ℚ) ≤ g.val ∧ g.val ≤ (B : ℚ) := by
  obtain ⟨h1, h2⟩ := sprintf4Round_bounds v B hden hlo hhi
  refine ⟨⟨sprintf4Round v, 10000⟩, goParseFloat_sprintf4 v, ?_, ?_⟩
  · exact Frac.le_val_of_le_num _ B (by norm_num) (by simpa using by linarith : _)
  · exact Frac.val_le_of_num_le _ B (by norm_num) (by simpa using by linarith : _)

theorem Frac.mant_facts (x y : Nat) (l : Nat) :
    0 < (Frac.add ⟨(x : Int), 1⟩ ⟨(y : Int), 10 ^ l⟩).den
    ∧ 0 ≤ (Frac.add ⟨(x : Int), 1⟩ ⟨(y : Int), 10 ^ l⟩).num := by
  unfold Frac.add
  constructor
  · simp only
    positivity
  · simp only
    positivity

theorem Frac.mulPow10_den_pos (a : Frac) (ex : Int) (h : 0 < a.den) :
    0 < (a.mulPow10 ex).den := by
  unfold Frac.mulPow10
  split <;> simp only <;> positivity

theorem Frac.mulPow10_num_nonneg (a : Frac) (ex : Int) (h : 0 ≤ a.num) :
    0 ≤ (a.mulPow10 ex).num := by
  unfold Frac.mulPow10
  split <;> simp only <;> positivity

theorem signed_facts (neg : Bool) (v : Frac) (hden : 0 < v.den) (hnum : 0 ≤ v.num) :
    0 < (if neg then v.neg else v).den ∧ (neg = false → 0 ≤ (if neg then v.neg else v).num) := by
  rcases neg with _ | _
  · simp only [Bool.false_eq_true, if_false]
    exact ⟨hden, fun _ => hnum⟩
  · simp only [if_true]
    unfold Frac.neg
    exact ⟨hden, fun hh => by simp at hh⟩

theorem goParseDecimal_finite_facts (neg : Bool) (s : Str) (f : Frac)
    (h : goParseDecimal neg s = some (GoFloat.finite f)) :
    0 < f.den ∧ (neg = false → 0 ≤ f.num) := by
  unfold goParseDecimal at h
  generalize hipr : spanDigits s = ipr at h
  obtain ⟨i1, i2⟩ := ipr
  simp only at h
  rcases i2 with _ | ⟨c2, t2⟩
  · simp only at h
    split at h
    · exact absurd h (by simp)
    · rw [Option.some.injEq, GoFloat.finite.injEq] at h
      subst h
      exact signed_facts neg _ (Frac.mant_facts _ _ _).1 (Frac.mant_facts _ _ _).2
  · simp only at h
    by_cases hdot : c2 = '.'
    · rw [if_pos hdot] at h
      generalize hfpr : spanDigits t2 = fpr at h
      obtain ⟨f1, f2⟩ := fpr
      simp only at h
      split at h
      · exact absurd h (by simp)
      · split at h
        · rw [Option.some.injEq, GoFloat.finite.injEq] at h
          subst h
          exact signed_facts neg _ (Frac.mant_facts _ _ _).1 (Frac.mant_facts _ _ _).2
        · split at h
          · split at h
            · rw [Option.some.injEq, GoFloat.finite.injEq] at h
              subst h
              exact signed_facts neg _
                (Frac.mulPow10_den_pos _ _ (Frac.mant_facts _ _ _).1)
                (Frac.mulPow10_num_nonneg _ _ (Frac.mant_facts _ _ _).2)
            · exact absurd h (by simp)
          · exact absurd h (by simp)
    · rw [if_neg hdot] at h
      simp only at h
      split at h
      · exact absurd h (by simp)
      · split at h
        · split at h
          · rw [Option.some.injEq, GoFloat.finite.injEq] at h
            subst h
            exact signed_facts neg _
              (Frac.mulPow10_den_pos _ _ (Frac.mant_facts _ _ _).1)
              (Frac.mulPow10_num_nonneg _ _ (Frac.mant_facts _ _ _).2)
          · exact absurd h (by simp)
        · exact absurd h (by simp)

theorem goParseFloat_finite_facts (c : Char) (r : Str) (f : Frac)
    (h : goParseFloat (c :: r) = some (GoFloat.finite f)) :
    0 < f.den ∧ (c ≠ '-' → 0 ≤ f.num) := by
  simp only [goParseFloat] at h
  by_cases hp : c = '+'
  · rw [if_pos hp] at h
    simp only at h
    split at h
    · exact absurd h (by simp)
    · split at h
      · exact absurd h (by simp)
      · obtain ⟨h1, h2⟩ := goParseDecimal_finite_facts false r f h
        exact ⟨h1, fun _ => h2 rfl⟩
  · rw [if_neg hp] at h
    by_cases hm : c = '-'
    · rw [if_pos hm] at h
      simp only at h
      split at h
      · exact absurd h (by simp)
      · split at h
        · exact absurd h (by simp)
        · obtain ⟨h1, _⟩ := goParseDecimal_finite_facts true r f h
          exact ⟨h1, fun hc => absurd hm hc⟩
    · rw [if_neg hm] at h
      simp only at h
      split at h
      · exact absurd h (by simp)
      · split at h
        · exact absurd h (by simp)
        · obtain ⟨h1, h2⟩ := goParseDecimal_finite_facts false (c :: r) f h
          exact ⟨h1, fun _ => h2 rfl⟩

theorem gga_v_bounds (df mf : Frac) (D : Int) (hD : 0 ≤ D)
    (hdfd : 0 < df.den) (hmfd : 0 < mf.den)
    (hdfn : 0 ≤ df.num) (hmfn : 0 ≤ mf.num)
    (hdle : df.gtI D = false) (hmle : mf.gtI 60 = false) :
    0 < (df.add (mf.divP 60)).den
    ∧ -((D + 1) * (df.add (mf.divP 60)).den) ≤ (df.add (mf.divP 60)).num
    ∧ (df.add (mf.divP 60)).num ≤ (D + 1) * (df.add (mf.divP 60)).den := by
  unfold Frac.gtI at hdle hmle
  simp only [decide_eq_false_iff_not, not_lt] at hdle hmle
  unfold Frac.add Frac.divP
  simp only
  have h1 : 0 ≤ df.num * (mf.den * 60) := mul_nonneg hdfn (by positivity)
  have h2 : 0 ≤ mf.num * df.den := mul_nonneg hmfn (le_of_lt hdfd)
  have h3 : 0 < df.den * (mf.den * 60) := by positivity
  have h4 : 0 ≤ (D + 1) * (df.den * (mf.den * 60)) :=
    mul_nonneg (by omega) (le_of_lt h3)
  refine ⟨h3, by linarith, ?_⟩
  nlinarith [mul_le_mul_of_nonneg_right hdle (by positivity : (0:Int) ≤ mf.den * 60),
    mul_le_mul_of_nonneg_right hmle (le_of_lt hdfd)]

theorem goParseFloat_den_pos (s : Str) (f : Frac)
    (h : goParseFloat s = some (GoFloat.finite f)) : 0 < f.den := by
  rcases s with _ | ⟨c, r⟩
  · simp [goParseFloat] at h
  · exact (goParseFloat_finite_facts c r f h).1

theorem gga_lat_amended (lat ns s : Str) (df mf : Frac)
    (hacc : GGALat2DD lat ns = some s)
    (hdeg : goParseFloat (lat.take 2) = some (GoFloat.finite df))
    (hmin : goParseFloat (lat.drop 2) = some (GoFloat.finite mf))
    (hmnn : 0 ≤ mf.num) :
    ∃ g : Frac, goParseFloat s = some (GoFloat.finite g)
      ∧ -(91 : ℚ) ≤ g.val ∧ g.val ≤ (91 : ℚ) := by
  rcases lat with _ | ⟨c, rest⟩
  · simp [GGALat2DD] at hacc
  simp only [GGALat2DD] at hacc
  rw [hdeg, hmin] at hacc
  simp only [GoFloat.gtQ, GoFloat.add, GoFloat.divPos, GoFloat.negate] at hacc
  split at hacc
  · exact absurd hacc (by simp)
  next hsig =>
  split at hacc
  · exact absurd hacc (by simp)
  next hlen =>
  split at hacc
  · exact absurd hacc (by simp)
  next hgt90 =>
  split at hacc
  · exact absurd hacc (by simp)
  next hgt60 =>
  rw [show (c :: rest).take 2 = c :: rest.take 1 from rfl] at hdeg
  have hcm : c ≠ '-' := by
    intro hEq
    subst hEq
    simp at hsig
  obtain ⟨hdfd, hdfn'⟩ := goParseFloat_finite_facts _ _ _ hdeg
  have hdfn := hdfn' hcm
  have hmfd := goParseFloat_den_pos _ _ hmin
  obtain ⟨hden, hlo, hhi⟩ := gga_v_bounds df mf 90 (by norm_num) hdfd hmfd hdfn hmnn
    (by simpa using hgt90) (by simpa using hgt60)
  split at hacc
  next hN =>
    rw [Option.some.injEq] at hacc
    subst hacc
    obtain ⟨g, hg, hglo, hghi⟩ := sprintf4_reparse_in_range (df.add (mf.divP 60)) 91 hden
      (by linarith) (by linarith)
    refine ⟨g, hg, ?_, ?_⟩
    · exact_mod_cast hglo
    · exact_mod_cast hghi
  next hnN =>
  split at hacc
  next hS =>
    rw [Option.some.injEq] at hacc
    subst hacc
    obtain ⟨g, hg, hglo, hghi⟩ := sprintf4_reparse_in_range (df.add (mf.divP 60)).neg 91
      (by simpa [Frac.neg] using hden)
      (by simp only [Frac.neg]; linarith) (by simp only [Frac.neg]; linarith)
    refine ⟨g, hg, ?_, ?_⟩
    · exact_mod_cast hglo
    · exact_mod_cast hghi
  next hnS => exact absurd hacc (by simp)

theorem gga_lon_amended (lon ew t : Str) (dg mg : Frac)
    (hacc : GGALon2DD lon ew = some t)
    (hdeg : goParseFloat (lon.take 3) = some (GoFloat.finite dg))
    (hmin : goParseFloat (lon.drop 3) = some (GoFloat.finite mg))
    (hmnn : 0 ≤ mg.num) :
    ∃ g : Frac, goParseFloat t = some (GoFloat.finite g)
      ∧ -(181 : ℚ) ≤ g.val ∧ g.val ≤ (181 : ℚ) := by
  rcases lon with _ | ⟨c, rest⟩
  · simp [GGALon2DD] at hacc
  simp only [GGALon2DD] at hacc
  rw [hdeg, hmin] at hacc
  simp only [GoFloat.gtQ, GoFloat.add, GoFloat.divPos, GoFloat.negate] at hacc
  split at hacc
  · exact absurd hacc (by simp)
  next hsig =>
  split at hacc
  · exact absurd hacc (by simp)
  next hlen =>
  split at hacc
  · exact absurd hacc (by simp)
  next hgt180 =>
  split at hacc
  · exact absurd hacc (by simp)
  next hgt60 =>
  rw [show (c :: rest).take 3 = c :: rest.take 2 from rfl] at hdeg
  have hcm : c ≠ '-' := by
    intro hEq
    subst hEq
    simp at hsig
  obtain ⟨hdfd, hdfn'⟩ := goParseFloat_finite_facts _ _ _ hdeg
  have hdfn := hdfn' hcm
  have hmfd := goParseFloat_den_pos _ _ hmin
  obtain ⟨hden, hlo, hhi⟩ := gga_v_bounds dg mg 180 (by norm_num) hdfd hmfd hdfn hmnn
    (by simpa using hgt180) (by simpa using hgt60)
  split at hacc
  next hE =>
    rw [Option.some.injEq] at hacc
    subst hacc
    obtain ⟨g, hg, hglo, hghi⟩ := sprintf4_reparse_in_range (dg.add (mg.divP 60)) 181 hden
      (by linarith) (by linarith)
    refine ⟨g, hg, ?_, ?_⟩
    · exact_mod_cast hglo
    · exact_mod_cast hghi
  next hnE =>
  split at hacc
  next hW =>
    rw [Option.some.injEq] at hacc
    subst hacc
    obtain ⟨g, hg, hglo, hghi⟩ := sprintf4_reparse_in_range (dg.add (mg.divP 60)).neg 181
      (by simpa [Frac.neg] using hden)
      (by simp only [Frac.neg]; linarith) (by simp only [Frac.neg]; linarith)
    refine ⟨g, hg, ?_, ?_⟩
    · exact_mod_cast hglo
    · exact_mod_cast hghi
  next hnW => exact absurd hacc (by simp)

set_option maxRecDepth 100000

/-- C2 counterexample: `GGALat2DD` accepts a minutes field equal to 60 (the
source checks `min > 60`, not `>= 60`) and accepts negative minutes (the
sign check guards only the coordinate's first character), so accepted
outputs escape [-90, 90]: "9060.0"/"N" yields "91.0000" (value 91 > 90) and
"00-99999"/"N" yields "-1666.6500" (value -1666.65 < -90). -/
theorem c2_gga_escapes_original_range :
    GGALat2DD "9060.0".data "N".data = some "91.0000".data
    ∧ GGALat2DD "00-99999".data "N".data = some "-1666.6500".data
    ∧ (∃ f : Frac, goParseFloat "91.0000".data = some (GoFloat.finite f) ∧ (90 : ℚ) < f.val)
    ∧ (∃ f : Frac, goParseFloat "-1666.6500".data = some (GoFloat.finite f) ∧ f.val < -(90 : ℚ)) := by
  refine ⟨by decide, by decide,
    ⟨⟨910000, 10000⟩, by decide, ?_⟩, ⟨⟨-16666500, 10000⟩, by decide, ?_⟩⟩
  · norm_num [Frac.val]
  · norm_num [Frac.val]

/-- C2 (amended): for every input accepted by `GGALat2DD` whose degree and
minutes parts parse as finite floats with nonnegative minutes, the emitted
decimal-degree string parses back to a value in [-91, 91] (the code's
strict `> 60` check admits minutes = 60, one extra degree); likewise
`GGALon2DD` under the same provisos yields a value in [-181, 181]. -/
theorem c2_amended_gga_dd_ranges (lat ns lon ew s t : Str) (df mf dg mg : Frac) :
    (GGALat2DD lat ns = some s →
      goParseFloat (lat.take 2) = some (GoFloat.finite df) →
      goParseFloat (lat.drop 2) = some (GoFloat.finite mf) →
      0 ≤ mf.num →
      ∃ g : Frac, goParseFloat s = some (GoFloat.finite g)
        ∧ -(91 : ℚ) ≤ g.val ∧ g.val ≤ (91 : ℚ))
    ∧ (GGALon2DD lon ew = some t →
      goParseFloat (lon.take 3) = some (GoFloat.finite dg) →
      goParseFloat (lon.drop 3) = some (GoFloat.finite mg) →
      0 ≤ mg.num →
      ∃ g : Frac, goParseFloat t = some (GoFloat.finite g)
        ∧ -(181 : ℚ) ≤ g.val ∧ g.val ≤ (181 : ℚ)) :=
  ⟨fun h1 h2 h3 h4 => gga_lat_amended lat ns s df mf h1 h2 h3 h4,
   fun h1 h2 h3 h4 => gga_lon_amended lon ew t dg mg h1 h2 h3 h4⟩

/-- Closed witness for the amended C2, at lat "9060.0"/"N" (emits
"91.0000") and lon "18060.0"/"E" (emits "181.0000"). -/
theorem c2_amended_gga_dd_ranges_witness :
    (∃ g : Frac, goParseFloat "91.0000".data = some (GoFloat.finite g)
      ∧ -(91 : ℚ) ≤ g.val ∧ g.val ≤ (91 : ℚ))
    ∧ (∃ g : Frac, goParseFloat "181.0000".data = some (GoFloat.finite g)
      ∧ -(181 : ℚ) ≤ g.val ∧ g.val ≤ (181 : ℚ)) := by
  have H := c2_amended_gga_dd_ranges "9060.0".data "N".data "18060.0".data "E".data
    "91.0000".data "181.0000".data ⟨90, 1⟩ ⟨600, 10⟩ ⟨180, 1⟩ ⟨600, 10⟩
  exact ⟨H.1 (by decide) (by decide) (by decide) (by decide),
         H.2 (by decide) (by decide) (by decide) (by decide)⟩

/-- C1 (refuted, code bug): on a fully valid `$SEAFLOW` stanza whose TSG
group has exactly 4 comma-separated fields, `Gradients5Parser.ParseLine`
returns an empty record — no values, no errors, zero time — instead of a
populated one: the TSG-parsing `else` block is commented out in the source,
so the values map gets only lat/lon/par and the `len(values) == 6` emission
check fails. With a TSG group that does not split into 4 fields the stanza
does emit, with temp/conductivity/salinity all NA, so the claim's two TSG
behaviours are exactly inverted relative to the code. -/
theorem c1_gradients5_four_field_tsg_dropped :
    gradients5ParseLine (NewThrottle 0) ("$SEAFLOW::$GPZDA,213309.00,12,01,2023,00,00*6D::$GPGGA,213309.00,4738.983141,N,12218.805824,W,2,17,0.7,15.773,M,-22.2,M,7.0,0402*44:: 12.3719,  3.64868,  31.2816, 1501.506::$PPAR, 157.580, 6.10, 5").data
      = some ({}, NewThrottle 0)
    ∧ gradients5ParseLine (NewThrottle 0) ("$SEAFLOW::$GPZDA,213309.00,12,01,2023,00,00*6D::$GPGGA,213309.00,4738.983141,N,12218.805824,W,2,17,0.7,15.773,M,-22.2,M,7.0,0402*44:: 12.3719,  3.64868,  31.2816::$PPAR, 157.580, 6.10, 5").data
      = some ({ Time := 63809155989,
                Values := ["47.6497".data, "-122.3134".data, tsdataNA, tsdataNA, tsdataNA,
                  "157.580".data],
                Errors := [g5ErrTSG] },
              { recent := 63809155989, interval := 0 }) := by
  constructor
  · decide
  · decide

/-- C3 (refuted, code bug): a valid single-line stanza whose fifth (PAR)
group is the empty string makes `ParseLine` panic rather than record a
diagnostic and emit NA: `strings.Split("", ",")` yields one field and the
unguarded `parFields[1]` indexes out of range (embedded as `none`). -/
theorem c3_gradients5_empty_par_group_panics :
    gradients5ParseLine (NewThrottle 0) ("$SEAFLOW::$GPZDA,213309.00,12,01,2023,00,00*6D::$GPGGA,213309.00,4738.983141,N,12218.805824,W,2,17,0.7,15.773,M,-22.2,M,7.0,0402*44:: 12.3719,  3.64868,  31.2816::").data
      = none := by
  decide

end Cruisemic
